import Mathlib

/-!
# Spreadsheet engine: dependency graph, cycle check and cache invalidation

Shallow embedding of `sheet.cpp`, `cell.cpp` and `formula.cpp`.

* `std::unordered_map` is an association list with unique keys (`UMap`);
  `operator[]` inserts a default entry when the key is missing, exactly as in C++.
* `std::set<int>` is a duplicate-free list; `*rbegin()` is its greatest element.
* A C++ exception is an early exit that carries the state reached so far.
* The two recursive lambdas (`hasCycle`, `invalidate`) recurse on a fuel counter;
  the callers supply a fuel computed from the map sizes, and the theorems show
  that this fuel is always enough.
* `common.h` and `FormulaAST.h` are not among the sources; what the code uses
  from them is collected in the structure `Ext`.
-/

namespace Spreadsheet

/-! ## Association lists standing for `std::unordered_map` -/

/-- An unordered map from keys to values, kept as an association list. -/
abbrev UMap (κ α : Type) := List (κ × α)

namespace UMap

variable {κ α : Type} [DecidableEq κ]

/-- Lookup, `m.find(k)`: the mapped value, or `none` for `end()`. -/
def find : UMap κ α → κ → Option α
  | [], _ => none
  | (k', v) :: m, k => if k' = k then some v else find m k

/-- Assignment `m[k] = v`: replaces the mapped value, or adds the entry. -/
def assign : UMap κ α → κ → α → UMap κ α
  | [], k, v => [(k, v)]
  | (k', v') :: m, k, v => if k' = k then (k, v) :: m else (k', v') :: assign m k v

/-- Removal `m.erase(k)`. -/
def erase : UMap κ α → κ → UMap κ α
  | [], _ => []
  | (k', v) :: m, k => if k' = k then erase m k else (k', v) :: erase m k

/-- The map after evaluating `m[k]`: a missing key is inserted with the default value. -/
def touch (m : UMap κ α) (k : κ) (dflt : α) : UMap κ α :=
  match find m k with
  | some _ => m
  | none => m ++ [(k, dflt)]

/-- The value `m[k]` refers to: the mapped value, or the default for a missing key. -/
def get (m : UMap κ α) (k : κ) (dflt : α) : α :=
  (find m k).getD dflt

/-- The keys of the map. -/
def keys (m : UMap κ α) : List κ := m.map Prod.fst

end UMap

/-! ## Position, Value and the external interface -/

/-- Position of `common.h`: a row and a column, both C++ `int`. -/
structure Position where
  row : Int
  col : Int
deriving DecidableEq

/-- The three exception classes a sheet operation can throw. -/
inductive Exception where
  | InvalidPositionException
  | FormulaException
  | CircularDependencyException
deriving DecidableEq

/-- The variant `CellInterface::Value`: text, number or formula error. -/
inductive Value (Num Err : Type) where
  | text (s : String)
  | number (x : Num)
  | error (e : Err)
deriving DecidableEq

/-- Modelled from the spec: the parts of `common.h` and `FormulaAST.h` the code relies on.
These headers are not among the sources. `ParseFormulaAST` returns `none` when the parser
throws; `Execute` receives the reader of cell values that the tree uses for its cell
references (an absent cell reads as `none`). -/
structure Ext where
  AST : Type
  Num : Type
  FormulaError : Type
  MAX_ROWS : Int
  MAX_COLS : Int
  ParseFormulaAST : String → Option AST
  GetCells : AST → List Position
  PrintFormula : AST → String
  Execute : AST → (Position → Option (Value Num FormulaError)) → Except FormulaError Num

/-- Modelled from the spec: `FORMULA_SIGN` of `common.h`, the formula marker. -/
def FORMULA_SIGN : Char := '='

/-- Modelled from the spec: `ESCAPE_SIGN` of `common.h`, the apostrophe. -/
def ESCAPE_SIGN : Char := Char.ofNat 39

/-- Modelled from the spec: `Position::IsValid` of `common.h`, the bounds check against
the fixed maximum row and column counts. -/
def Position.IsValid (E : Ext) (p : Position) : Bool :=
  decide (0 ≤ p.row) && decide (0 ≤ p.col) && decide (p.row < E.MAX_ROWS) && decide (p.col < E.MAX_COLS)

/-- Modelled from the spec: `Position::operator<` of `common.h`, row first, then column. -/
def Position.lt (a b : Position) : Bool :=
  decide (a.row < b.row) || (decide (a.row = b.row) && decide (a.col < b.col))

/-! ## Formula (formula.cpp) -/

/-- Insertion of one position into an ascending list. -/
def sortInsert (p : Position) : List Position → List Position
  | [] => [p]
  | q :: qs => if Position.lt q p then q :: sortInsert p qs else p :: q :: qs

/-- The call `cells.sort()`: the ascending arrangement under `operator<`. -/
def sortCells : List Position → List Position
  | [] => []
  | p :: ps => sortInsert p (sortCells ps)

/-- The call `cells.unique()`: drops every element equal to its predecessor. -/
def uniqueCells : List Position → List Position
  | [] => []
  | [p] => [p]
  | p :: q :: ps => if p = q then uniqueCells (q :: ps) else p :: uniqueCells (q :: ps)

/-- The method `Formula::GetReferencedCells`. -/
def Formula.GetReferencedCells (E : Ext) (ast : E.AST) : List Position :=
  uniqueCells (sortCells (E.GetCells ast))

/-- The method `Formula::GetExpression`. -/
def Formula.GetExpression (E : Ext) (ast : E.AST) : String :=
  E.PrintFormula ast

/-- The function `ParseFormula`: every parser failure surfaces as `FormulaException`. -/
def ParseFormula (E : Ext) (expression : String) : Except Exception E.AST :=
  match E.ParseFormulaAST expression with
  | some ast => .ok ast
  | none => .error .FormulaException

/-! ## Cell (cell.cpp) -/

/-- The three implementations behind `Cell::impl_`. -/
inductive Impl (E : Ext) where
  | EmptyImpl
  | TextImpl (text : String) (escaped : Bool)
  | FormulaImpl (expr : String) (formula : E.AST)

/-- A cell: its content and the lazily filled cache. -/
structure Cell (E : Ext) where
  impl_ : Impl E
  cached_value_ : Option (Value E.Num E.FormulaError)
  is_valid_ : Bool

/-- The constructor `Cell::Cell`: empty content, nothing cached. -/
def Cell.new (E : Ext) : Cell E :=
  { impl_ := .EmptyImpl, cached_value_ := none, is_valid_ := false }

/-- The method `Cell::GetText`. -/
def Cell.GetText {E : Ext} (c : Cell E) : String :=
  match c.impl_ with
  | .EmptyImpl => ""
  | .TextImpl text escaped => if escaped then String.mk (ESCAPE_SIGN :: text.data) else text
  | .FormulaImpl _ formula => String.mk (FORMULA_SIGN :: (Formula.GetExpression E formula).data)

/-- The method `Cell::InvalidateCache`. -/
def Cell.InvalidateCache {E : Ext} (c : Cell E) : Cell E :=
  { c with is_valid_ := false, cached_value_ := none }

/-- The method `Cell::GetReferencedCells`. -/
def Cell.GetReferencedCells {E : Ext} (c : Cell E) : List Position :=
  match c.impl_ with
  | .FormulaImpl _ formula => Formula.GetReferencedCells E formula
  | _ => []

/-! ## Sheet (sheet.h, sheet.cpp) -/

/-- The data members of `Sheet`. -/
structure Sheet (E : Ext) where
  cells_ : UMap Position (Cell E)
  rows_ : List Int
  cols_ : List Int
  row_counts_ : UMap Int Int
  col_counts_ : UMap Int Int
  dependencies_ : UMap Position (List Position)
  reverse_dependencies_ : UMap Position (List Position)

/-- The sheet `CreateSheet` returns: every container empty. -/
def Sheet.empty (E : Ext) : Sheet E :=
  { cells_ := [], rows_ := [], cols_ := [], row_counts_ := [], col_counts_ := [],
    dependencies_ := [], reverse_dependencies_ := [] }

/-- The function `InvalidPositionCheck`: the exception it throws, if any. -/
def InvalidPositionCheck (E : Ext) (pos : Position) : Option Exception :=
  if pos.IsValid E then none else some .InvalidPositionException

/-- Insertion into a `std::set<int>`. -/
def setInsert (s : List Int) (x : Int) : List Int :=
  if x ∈ s then s else x :: s

/-- Removal from a `std::set<int>`. -/
def setErase (s : List Int) (x : Int) : List Int :=
  s.filter (fun y => decide (y ≠ x))

/-- The element `*s.rbegin()` of a `std::set<int>`: its greatest element. -/
def setRbegin : List Int → Option Int
  | [] => none
  | x :: xs => match setRbegin xs with
    | none => some x
    | some m => some (max x m)

/-- The method `Sheet::UpdateSheetSize`. -/
def Sheet.UpdateSheetSize {E : Ext} (s : Sheet E) (pos : Position) : Sheet E :=
  let row := pos.row
  let col := pos.col
  let rc := UMap.get s.row_counts_ row 0
  let s1 : Sheet E := { s with row_counts_ := UMap.assign s.row_counts_ row (rc + 1),
                               rows_ := if rc = 0 then setInsert s.rows_ row else s.rows_ }
  let cc := UMap.get s1.col_counts_ col 0
  { s1 with col_counts_ := UMap.assign s1.col_counts_ col (cc + 1),
            cols_ := if cc = 0 then setInsert s1.cols_ col else s1.cols_ }

/-- The method `Sheet::GetCell`: the exception thrown, or the cell found (if any). -/
def Sheet.GetCell {E : Ext} (s : Sheet E) (pos : Position) : Except Exception (Option (Cell E)) :=
  match InvalidPositionCheck E pos with
  | some e => .error e
  | none => .ok (UMap.find s.cells_ pos)

/-- The method `Sheet::ClearCell`: the state afterwards and the exception thrown, if any. -/
def Sheet.ClearCell {E : Ext} (s : Sheet E) (pos : Position) : Sheet E × Option Exception :=
  match InvalidPositionCheck E pos with
  | some e => (s, some e)
  | none =>
    match UMap.find s.cells_ pos with
    | none => (s, none)
    | some _ =>
      let s1 : Sheet E := { s with cells_ := UMap.erase s.cells_ pos }
      let row := pos.row
      let col := pos.col
      let rc := UMap.get s1.row_counts_ row 0 - 1
      let s2 : Sheet E :=
        if rc = 0 then
          { s1 with rows_ := setErase s1.rows_ row, row_counts_ := UMap.erase s1.row_counts_ row }
        else { s1 with row_counts_ := UMap.assign s1.row_counts_ row rc }
      let cc := UMap.get s2.col_counts_ col 0 - 1
      let s3 : Sheet E :=
        if cc = 0 then
          { s2 with cols_ := setErase s2.cols_ col, col_counts_ := UMap.erase s2.col_counts_ col }
        else { s2 with col_counts_ := UMap.assign s2.col_counts_ col cc }
      (s3, none)

/-- The method `Sheet::GetPrintableSize`, as the pair (rows, cols). -/
def Sheet.GetPrintableSize {E : Ext} (s : Sheet E) : Int × Int :=
  match setRbegin s.rows_, setRbegin s.cols_ with
  | some max_row, some max_col => (max_row + 1, max_col + 1)
  | _, _ => (0, 0)

/-! ## The recursive lambdas of sheet.cpp -/

/-- A range-based `for` loop whose body can leave early (a `return true`, or an exception):
the flag tells whether the loop was left early. `none` means the fuel ran out. -/
def forEach {σ : Type} (body : σ → Position → Option (Bool × σ)) :
    σ → List Position → Option (Bool × σ)
  | st, [] => some (false, st)
  | st, d :: ds =>
    match body st d with
    | none => none
    | some (true, st1) => some (true, st1)
    | some (false, st1) => forEach body st1 ds

/-- The lambda `hasCycle` of `Sheet::CheckCircularDependency`, on the pair of the map
`dependencies_` (which `operator[]` may extend) and the set `visited`. -/
def hasCycle (pos : Position) :
    Nat → UMap Position (List Position) × List Position → Position →
      Option (Bool × (UMap Position (List Position) × List Position))
  | 0, _, _ => none
  | fuel + 1, (deps, visited), current =>
    if current = pos then some (true, (deps, visited))
    else if current ∈ visited then some (false, (deps, visited))
    else
      let visited1 := current :: visited
      let deps1 := UMap.touch deps current []
      forEach (hasCycle pos fuel) (deps1, visited1) (UMap.get deps1 current [])

/-- The method `Sheet::CheckCircularDependency`: the state afterwards and the exception
thrown, if any. -/
def Sheet.CheckCircularDependency {E : Ext} (s : Sheet E) (pos : Position)
    (deps : List Position) : Option (Sheet E × Option Exception) :=
  match forEach (hasCycle pos (s.dependencies_.length + 1)) (s.dependencies_, []) deps with
  | none => none
  | some (true, (deps1, _)) =>
    some ({ s with dependencies_ := deps1 }, some .CircularDependencyException)
  | some (false, (deps1, _)) => some ({ s with dependencies_ := deps1 }, none)

/-- First loop of `UpdateDependencies`: erase `pos` from the reverse list of each old dependency. -/
def removeReverse (pos : Position) :
    UMap Position (List Position) → List Position → UMap Position (List Position)
  | rev, [] => rev
  | rev, old_dep :: rest =>
    removeReverse pos
      (UMap.assign rev old_dep ((UMap.get rev old_dep []).filter (fun q => decide (q ≠ pos)))) rest

/-- Second loop of `UpdateDependencies`: append `pos` to the reverse list of each new dependency. -/
def addReverse (pos : Position) :
    UMap Position (List Position) → List Position → UMap Position (List Position)
  | rev, [] => rev
  | rev, dep :: rest =>
    addReverse pos (UMap.assign rev dep (UMap.get rev dep [] ++ [pos])) rest

/-- The method `Sheet::UpdateDependencies`. -/
def Sheet.UpdateDependencies {E : Ext} (s : Sheet E) (pos : Position)
    (new_deps : List Position) : Sheet E :=
  let old := UMap.get s.dependencies_ pos []
  let rev1 := removeReverse pos s.reverse_dependencies_ old
  { s with dependencies_ := UMap.assign s.dependencies_ pos new_deps,
           reverse_dependencies_ := addReverse pos rev1 new_deps }

/-- The method `Cell::Set`, called on `cell` owned by nobody yet, against the sheet `s`:
the sheet afterwards, and the exception thrown or the updated cell. -/
def Cell.Set {E : Ext} (s : Sheet E) (cell : Cell E) (pos : Position) (text : String) :
    Option (Sheet E × Except Exception (Cell E)) :=
  match text.data with
  | [] => some (s, .ok { cell with impl_ := .EmptyImpl })
  | c :: rest =>
    if c = FORMULA_SIGN then
      let expr := String.mk rest
      match ParseFormula E expr with
      | .error e => some (s, .error e)
      | .ok formula =>
        let deps := Formula.GetReferencedCells E formula
        if deps.any (fun dep => !dep.IsValid E) then some (s, .error .FormulaException)
        else
          match s.CheckCircularDependency pos deps with
          | none => none
          | some (s1, some e) => some (s1, .error e)
          | some (s1, none) =>
            some (s1.UpdateDependencies pos deps, .ok { cell with impl_ := .FormulaImpl expr formula })
    else if c = ESCAPE_SIGN then
      some (s, .ok { cell with impl_ := .TextImpl (String.mk rest) true })
    else some (s, .ok { cell with impl_ := .TextImpl text false })

/-- The lambda `invalidate` of `Sheet::InvalidateCacheForDependents`, on the pair of the
sheet and the set `visited`. The flag is set when `GetCell` throws. -/
def invalidate {E : Ext} :
    Nat → Sheet E × List Position → Position → Option (Bool × (Sheet E × List Position))
  | 0, _, _ => none
  | fuel + 1, (s, visited), current =>
    if current ∈ visited then some (false, (s, visited))
    else
      let visited1 := current :: visited
      match s.GetCell current with
      | .error _ => some (true, (s, visited1))
      | .ok found =>
        let cells1 : UMap Position (Cell E) :=
          match found with
          | some cell => UMap.assign s.cells_ current cell.InvalidateCache
          | none => s.cells_
        let s2 : Sheet E :=
          { s with cells_ := cells1,
                   reverse_dependencies_ := UMap.touch s.reverse_dependencies_ current [] }
        forEach (invalidate fuel) (s2, visited1) (UMap.get s2.reverse_dependencies_ current [])

/-- The method `Sheet::InvalidateCacheForDependents`. -/
def Sheet.InvalidateCacheForDependents {E : Ext} (s : Sheet E) (pos : Position) :
    Option (Sheet E × Option Exception) :=
  match invalidate (s.reverse_dependencies_.length + 1) (s, []) pos with
  | none => none
  | some (true, (s1, _)) => some (s1, some .InvalidPositionException)
  | some (false, (s1, _)) => some (s1, none)

/-- Lines 44 to 53 of sheet.cpp, the part of `Sheet::SetCell` that follows
`cell->Set(pos, text)`: clear the old cell, store the new one, run the invalidation,
update the bookkeeping. -/
def Sheet.installCell {E : Ext} (s1 : Sheet E) (pos : Position) (cell : Cell E) :
    Option (Sheet E × Option Exception) :=
  let cleared : Sheet E × Option Exception :=
    if (UMap.find s1.cells_ pos).isSome then s1.ClearCell pos else (s1, none)
  match cleared with
  | (s2, some e) => some (s2, some e)
  | (s2, none) =>
    let s3 : Sheet E := { s2 with cells_ := UMap.assign s2.cells_ pos cell }
    match s3.InvalidateCacheForDependents pos with
    | none => none
    | some (s4, some e) => some (s4, some e)
    | some (s4, none) => some (s4.UpdateSheetSize pos, none)

/-- The method `Sheet::SetCell`: the state afterwards and the exception thrown, if any. -/
def Sheet.SetCell {E : Ext} (s : Sheet E) (pos : Position) (text : String) :
    Option (Sheet E × Option Exception) :=
  match InvalidPositionCheck E pos with
  | some e => some (s, some e)
  | none =>
    if text.data = [] then some (s.ClearCell pos)
    else
      match Cell.Set s (Cell.new E) pos text with
      | none => none
      | some (s1, .error e) => some (s1, some e)
      | some (s1, .ok cell) => s1.installCell pos cell

/-! ## Reading values (Cell::GetValue through the sheet) -/

/-- Modelled from the spec: the cell reads of `FormulaAST::Execute`, which is not among the
sources. Every referenced position is read through `GetCell` and that cell's `GetValue`;
the values found are collected for `Ext.Execute`. -/
def readCells {E : Ext}
    (getValue : Sheet E → Position → Option (Sheet E × Option (Value E.Num E.FormulaError))) :
    Sheet E → List Position → Option (Sheet E × UMap Position (Value E.Num E.FormulaError))
  | s, [] => some (s, [])
  | s, p :: ps =>
    match getValue s p with
    | none => none
    | some (s1, v) =>
      match readCells getValue s1 ps with
      | none => none
      | some (s2, vals) =>
        some (s2, match v with
                  | some x => (p, x) :: vals
                  | none => vals)

/-- The assignments `cached_value_ = v; is_valid_ = true` on the cell stored at `pos`. -/
def Sheet.storeCache {E : Ext} (s : Sheet E) (pos : Position)
    (v : Value E.Num E.FormulaError) : Sheet E :=
  match UMap.find s.cells_ pos with
  | some c =>
    { s with cells_ := UMap.assign s.cells_ pos { c with cached_value_ := some v, is_valid_ := true } }
  | none => s

/-- The call `GetCell(pos)->GetValue()` for a valid `pos`: the sheet with its caches filled
and the value (`none` when no cell is stored at `pos`). `Cell::GetValue` returns the cache
when it is valid; otherwise it evaluates `impl_`, with `Formula::Evaluate` turning a
`FormulaError` into a value, and stores the result. -/
def Sheet.GetValue {E : Ext} :
    Nat → Sheet E → Position → Option (Sheet E × Option (Value E.Num E.FormulaError))
  | 0, _, _ => none
  | fuel + 1, s, pos =>
    match UMap.find s.cells_ pos with
    | none => some (s, none)
    | some cell =>
      if cell.is_valid_ then some (s, cell.cached_value_)
      else
        match cell.impl_ with
        | .EmptyImpl => some (s.storeCache pos (.text ""), some (.text ""))
        | .TextImpl text _ => some (s.storeCache pos (.text text), some (.text text))
        | .FormulaImpl _ formula =>
          match readCells (Sheet.GetValue fuel) s (E.GetCells formula) with
          | none => none
          | some (s1, vals) =>
            let v : Value E.Num E.FormulaError :=
              match E.Execute formula (UMap.find vals) with
              | .ok x => .number x
              | .error e => .error e
            some (s1.storeCache pos v, some v)

/-- The sheet with every cache dropped: what a value computed from scratch is read from. -/
def Sheet.dropCaches {E : Ext} (s : Sheet E) : Sheet E :=
  { s with cells_ := s.cells_.map (fun e => (e.1, e.2.InvalidateCache)) }

/-- The value obtained by evaluating the content of the cell at `pos` afresh against the
current sheet, no cache being trusted. -/
def Sheet.Recompute {E : Ext} (fuel : Nat) (s : Sheet E) (pos : Position) :
    Option (Option (Value E.Num E.FormulaError)) :=
  (Sheet.GetValue fuel s.dropCaches pos).map Prod.snd

/-! ## Reachable states -/

/-- The sheet states a host can produce: starting from the empty sheet, any sequence of
`SetCell` (accepted or rejected), `ClearCell` and `GetValue` calls. -/
inductive Reachable (E : Ext) : Sheet E → Prop where
  | empty : Reachable E (Sheet.empty E)
  | setCell {s s1 : Sheet E} {thrown : Option Exception} (pos : Position) (text : String) :
      Reachable E s → s.SetCell pos text = some (s1, thrown) → Reachable E s1
  | clearCell {s s1 : Sheet E} {thrown : Option Exception} (pos : Position) :
      Reachable E s → s.ClearCell pos = (s1, thrown) → Reachable E s1
  | getValue {s s1 : Sheet E} {v : Option (Value E.Num E.FormulaError)} (fuel : Nat)
      (pos : Position) :
      Reachable E s → pos.IsValid E = true → Sheet.GetValue fuel s pos = some (s1, v) →
      Reachable E s1

/-! ## Graph notions used in the statements -/

/-- The forward relation of a dependency map: a missing entry is the empty list. -/
def edges (m : UMap Position (List Position)) (p : Position) : List Position :=
  UMap.get m p []

/-- Existence of a path of length at least one along `g` from `a` to `b`. -/
def Path (g : Position → List Position) (a b : Position) : Prop :=
  Relation.TransGen (fun x y => y ∈ g x) a b

/-- Existence of a path of any length (possibly zero) along `g` from `a` to `b`. -/
def Reach (g : Position → List Position) (a b : Position) : Prop :=
  Relation.ReflTransGen (fun x y => y ∈ g x) a b

/-- The positions the formula stored at `p` refers to; nothing for text, empty or absent cells. -/
def reads {E : Ext} (s : Sheet E) (p : Position) : List Position :=
  match UMap.find s.cells_ p with
  | some c => c.GetReferencedCells
  | none => []

/-! ## A concrete instance of the external interface, for the scenarios -/

/-- A small expression tree: cell references and sums. -/
inductive SampleAST where
  | cell (p : Position)
  | add (a b : SampleAST)
deriving DecidableEq

/-- The cell references of a sample tree, left to right. -/
def SampleAST.cells : SampleAST → List Position
  | .cell p => [p]
  | .add a b => a.cells ++ b.cells

/-- The decimal number written by a list of digits. -/
def digitsValue (cs : List Char) : Int :=
  cs.foldl (fun acc c => acc * 10 + (Int.ofNat c.toNat - 48)) 0

/-- Evaluation of a sample tree: an absent cell counts as zero, a text as the number it writes. -/
def SampleAST.exec (read : Position → Option (Value Int Unit)) : SampleAST → Except Unit Int
  | .cell p =>
    match read p with
    | none => .ok 0
    | some (.text t) => .ok (digitsValue t.data)
    | some (.number x) => .ok x
    | some (.error e) => .error e
  | .add a b =>
    match a.exec read, b.exec read with
    | .ok x, .ok y => .ok (x + y)
    | .error e, _ => .error e
    | _, .error e => .error e

/-- The positions A1, B1, C1, and XFE1 (the first column beyond 16384 columns). -/
def A1 : Position := ⟨0, 0⟩

/-- Position B1. -/
def B1 : Position := ⟨0, 1⟩

/-- Position C1. -/
def C1 : Position := ⟨0, 2⟩

/-- Position XFE1, out of bounds for 16384 columns. -/
def XFE1 : Position := ⟨0, 16384⟩

/-- A parser for the handful of expressions the scenarios use. -/
def sampleParse (expression : String) : Option SampleAST :=
  if expression = "A1" then some (.cell A1)
  else if expression = "B1" then some (.cell B1)
  else if expression = "C1" then some (.cell C1)
  else if expression = "A1+B1" then some (.add (.cell A1) (.cell B1))
  else if expression = "A1+XFE1" then some (.add (.cell A1) (.cell XFE1))
  else none

/-- The sample instance: a 16384 by 16384 grid, integers for numbers. -/
@[reducible] def sampleExt : Ext :=
  { AST := SampleAST, Num := Int, FormulaError := Unit,
    MAX_ROWS := 16384, MAX_COLS := 16384,
    ParseFormulaAST := sampleParse,
    GetCells := SampleAST.cells,
    PrintFormula := fun _ => "",
    Execute := fun ast read => ast.exec read }

/-- Runs `SetCell` and keeps the state, whether the edit was accepted or rejected. -/
def afterSet (s : Sheet sampleExt) (pos : Position) (text : String) : Sheet sampleExt :=
  match s.SetCell pos text with
  | some (s1, _) => s1
  | none => s

/-- Runs `GetValue` with ample fuel and keeps the state. -/
def afterGet (s : Sheet sampleExt) (pos : Position) : Sheet sampleExt :=
  match Sheet.GetValue 8 s pos with
  | some (s1, _) => s1
  | none => s

/-! ## Notions used in the proofs and statements -/

/-- Depth-first search over the successor function `g`, stopping at the first position
satisfying `stop`; the common skeleton of the two lambdas. -/
def dfs (g : Position → List Position) (stop : Position → Bool) :
    Nat → List Position → Position → Option (Bool × List Position)
  | 0, _, _ => none
  | fuel + 1, visited, current =>
    if stop current then some (true, visited)
    else if current ∈ visited then some (false, visited)
    else forEach (dfs g stop fuel) (current :: visited) (g current)

/-- What a search that was not stopped leaves behind: the start nodes are visited, and every
newly visited node is no stop node, is reachable from a start node and has all its
successors visited. -/
def Closes (g : Position → List Position) (stop : Position → Bool)
    (V V1 roots : List Position) : Prop :=
  V ⊆ V1 ∧ (∀ d ∈ roots, d ∈ V1) ∧
    ∀ v ∈ V1, v ∉ V → stop v = false ∧ (∃ d ∈ roots, Reach g d v) ∧ ∀ w ∈ g v, w ∈ V1

/-- Number of the listed nodes that are not visited yet: the fuel a search can still need. -/
def unvisited (nodes V : List Position) : Nat :=
  nodes.countP (fun x => decide (x ∉ V))

/-- The only change `operator[]` makes to a map of lists: a missing key may appear, mapped
to the empty list. -/
def Extends (m m1 : UMap Position (List Position)) : Prop :=
  ∀ k, UMap.find m1 k = UMap.find m k ∨ (UMap.find m k = none ∧ UMap.find m1 k = some [])

/-- Absence of cycles: no position has a path of length at least one back to itself. -/
def Acyclic (g : Position → List Position) : Prop :=
  ∀ p, ¬ Path g p p

/-- The two dependency maps are inverse relations. -/
def Inverse (fwd rev : UMap Position (List Position)) : Prop :=
  ∀ p d, p ∈ edges rev d ↔ d ∈ edges fwd p

/-- What a run of `invalidate` changes: `visited` grows, `reverse_dependencies_` gains at
most default entries, and exactly the cells at newly visited valid positions have their
cache dropped. -/
structure Framed {E : Ext} (st st1 : Sheet E × List Position) : Prop where
  visited : st.2 ⊆ st1.2
  rev : Extends st.1.reverse_dependencies_ st1.1.reverse_dependencies_
  deps : st1.1.dependencies_ = st.1.dependencies_
  rows : st1.1.rows_ = st.1.rows_
  cols : st1.1.cols_ = st.1.cols_
  row_counts : st1.1.row_counts_ = st.1.row_counts_
  col_counts : st1.1.col_counts_ = st.1.col_counts_
  keys : UMap.keys st1.1.cells_ = UMap.keys st.1.cells_
  cells : ∀ q, UMap.find st1.1.cells_ q =
    if q ∈ st1.2 ∧ q ∉ st.2 ∧ q.IsValid E = true
    then (UMap.find st.1.cells_ q).map Cell.InvalidateCache else UMap.find st.1.cells_ q

/-- Occupancy bookkeeping along one axis (`proj` is the row or the column of a position):
the count map holds the number of keys on each line, and the set holds the lines in use. -/
def CountsOk (proj : Position → Int) (ks : List Position) (set : List Int)
    (cnt : UMap Int Int) : Prop :=
  ∀ r, UMap.get cnt r 0 = ((ks.countP (fun k => decide (proj k = r)) : Nat) : Int) ∧
    (r ∈ set ↔ 0 < ks.countP (fun k => decide (proj k = r)))

/-- The invariant of reachable sheets. -/
structure Inv {E : Ext} (s : Sheet E) : Prop where
  acyclic : Acyclic (edges s.dependencies_)
  inverse : Inverse s.dependencies_ s.reverse_dependencies_
  sources : ∀ p d, d ∈ edges s.dependencies_ p → p.IsValid E = true
  reads_sub : ∀ p d, d ∈ reads s p → d ∈ edges s.dependencies_ p
  nodup : (UMap.keys s.cells_).Nodup
  rows : CountsOk Position.row (UMap.keys s.cells_) s.rows_ s.row_counts_
  cols : CountsOk Position.col (UMap.keys s.cells_) s.cols_ s.col_counts_
  keys_valid : ∀ p ∈ UMap.keys s.cells_, p.IsValid E = true

/-- Two sheets that differ only in cache fields and in default entries of the two
dependency maps. -/
structure Similar {E : Ext} (s s1 : Sheet E) : Prop where
  deps : Extends s.dependencies_ s1.dependencies_
  rev : Extends s.reverse_dependencies_ s1.reverse_dependencies_
  rows : s1.rows_ = s.rows_
  cols : s1.cols_ = s.cols_
  row_counts : s1.row_counts_ = s.row_counts_
  col_counts : s1.col_counts_ = s.col_counts_
  keys : UMap.keys s1.cells_ = UMap.keys s.cells_
  impl : ∀ q, (UMap.find s1.cells_ q).map Cell.impl_ = (UMap.find s.cells_ q).map Cell.impl_

/-- The possible outcomes of `Cell::Set` for the text `text` at `pos` on the sheet `s`. -/
inductive SetResult {E : Ext} (s : Sheet E) (cell : Cell E) (pos : Position) (text : String) :
    Sheet E × Except Exception (Cell E) → Prop where
  | empty : text.data = [] → SetResult s cell pos text (s, .ok { cell with impl_ := .EmptyImpl })
  | parseError (rest : List Char) : text.data = FORMULA_SIGN :: rest →
      E.ParseFormulaAST (String.mk rest) = none →
      SetResult s cell pos text (s, .error .FormulaException)
  | badReference (rest : List Char) (formula : E.AST) : text.data = FORMULA_SIGN :: rest →
      E.ParseFormulaAST (String.mk rest) = some formula →
      (∃ d ∈ Formula.GetReferencedCells E formula, d.IsValid E = false) →
      SetResult s cell pos text (s, .error .FormulaException)
  | cycle (rest : List Char) (formula : E.AST) (deps1 : UMap Position (List Position)) :
      text.data = FORMULA_SIGN :: rest →
      E.ParseFormulaAST (String.mk rest) = some formula →
      (∀ d ∈ Formula.GetReferencedCells E formula, d.IsValid E = true) →
      Extends s.dependencies_ deps1 →
      (∃ d ∈ Formula.GetReferencedCells E formula, Reach (edges s.dependencies_) d pos) →
      SetResult s cell pos text
        ({ s with dependencies_ := deps1 }, .error .CircularDependencyException)
  | formula (rest : List Char) (formula : E.AST) (deps1 : UMap Position (List Position)) :
      text.data = FORMULA_SIGN :: rest →
      E.ParseFormulaAST (String.mk rest) = some formula →
      (∀ d ∈ Formula.GetReferencedCells E formula, d.IsValid E = true) →
      Extends s.dependencies_ deps1 →
      (∀ d ∈ Formula.GetReferencedCells E formula, ¬ Reach (edges s.dependencies_) d pos) →
      SetResult s cell pos text
        (Sheet.UpdateDependencies { s with dependencies_ := deps1 } pos
            (Formula.GetReferencedCells E formula),
          .ok { cell with impl_ := .FormulaImpl (String.mk rest) formula })
  | escaped (rest : List Char) : text.data = ESCAPE_SIGN :: rest →
      SetResult s cell pos text (s, .ok { cell with impl_ := .TextImpl (String.mk rest) true })
  | plain (c : Char) (rest : List Char) : text.data = c :: rest → c ≠ FORMULA_SIGN →
      c ≠ ESCAPE_SIGN →
      SetResult s cell pos text (s, .ok { cell with impl_ := .TextImpl text false })

/-- What the second half of `SetCell` needs from the sheet `Cell::Set` left behind: the
graph part of the invariant, and a dependency list of `pos` covering the new cell. -/
structure Ready {E : Ext} (s0 : Sheet E) (pos : Position) (cell : Cell E) : Prop where
  acyclic : Acyclic (edges s0.dependencies_)
  inverse : Inverse s0.dependencies_ s0.reverse_dependencies_
  sources : ∀ p d, d ∈ edges s0.dependencies_ p → p.IsValid E = true
  reads_sub : ∀ p, p ≠ pos → ∀ d ∈ reads s0 p, d ∈ edges s0.dependencies_ p
  covers : ∀ d ∈ cell.GetReferencedCells, d ∈ edges s0.dependencies_ pos
  nodup : (UMap.keys s0.cells_).Nodup
  rows : CountsOk Position.row (UMap.keys s0.cells_) s0.rows_ s0.row_counts_
  cols : CountsOk Position.col (UMap.keys s0.cells_) s0.cols_ s0.col_counts_
  keys_valid : ∀ p ∈ UMap.keys s0.cells_, p.IsValid E = true

/-- Runs `ClearCell` and keeps the state. -/
def afterClear (s : Sheet sampleExt) (pos : Position) : Sheet sampleExt :=
  (s.ClearCell pos).1

/-- The exception thrown by `SetCell`, if it returns. -/
def thrownBy (s : Sheet sampleExt) (pos : Position) (text : String) : Option (Option Exception) :=
  (s.SetCell pos text).map Prod.snd

/-- The validity flag and the cached value of the cell stored at `pos`. -/
def cacheAt (s : Sheet sampleExt) (pos : Position) : Option (Bool × Option (Value Int Unit)) :=
  (UMap.find s.cells_ pos).map (fun c => (c.is_valid_, c.cached_value_))

/-- The sheet after `SetCell(A1, "=B1")`. -/
def sheetA : Sheet sampleExt := afterSet (Sheet.empty sampleExt) A1 "=B1"

/-- The sheet after `SetCell(A1, "=B1"); SetCell(A1, "text")`. -/
def sheetStale : Sheet sampleExt := afterSet sheetA A1 "text"

/-- The sheet after `SetCell(B1, "=C1")`. -/
def sheetB : Sheet sampleExt := afterSet (Sheet.empty sampleExt) B1 "=C1"

/-- The sheet after `SetCell(A1, "=B1"); SetCell(B1, "5"); GetValue(A1)`. -/
def sheetCached : Sheet sampleExt := afterGet (afterSet sheetA B1 "5") A1

/-- The cycle check as the specification words it: a separate depth-first traversal, with a
visited set of its own, from each candidate dependency. The flag tells whether `pos` was
reached. -/
def checkEachFresh (pos : Position) (fuel : Nat) :
    UMap Position (List Position) → List Position →
      Option (Bool × UMap Position (List Position))
  | deps, [] => some (false, deps)
  | deps, d :: ds =>
    match hasCycle pos fuel (deps, []) d with
    | none => none
    | some (true, (deps1, _)) => some (true, deps1)
    | some (false, (deps1, _)) => checkEachFresh pos fuel deps1 ds

/-- A sheet whose dependency maps hold the cycle A1 -> B1 -> A1 (no sequence of edits
produces it; the traversals must cope with it all the same). -/
def sheetCyclic : Sheet sampleExt :=
  { Sheet.empty sampleExt with
    dependencies_ := [(A1, [B1]), (B1, [A1])],
    reverse_dependencies_ := [(B1, [A1]), (A1, [B1])] }

namespace UMap
variable {κ α : Type} [DecidableEq κ]

theorem find_assign (m : UMap κ α) (k k' : κ) (v : α) :
    find (assign m k v) k' = if k = k' then some v else find m k' := by
  induction m with
  | nil => simp [assign, find]
  | cons e m ih =>
    obtain ⟨a, b⟩ := e
    by_cases h : a = k
    · subst h
      by_cases h2 : a = k' <;> simp [assign, find, h2]
    · by_cases h2 : a = k'
      · subst h2
        simp [assign, find, h, Ne.symm h]
      · simp [assign, find, h, h2, ih]

theorem find_erase (m : UMap κ α) (k k' : κ) :
    find (erase m k) k' = if k = k' then none else find m k' := by
  induction m with
  | nil => simp [erase, find]
  | cons e m ih =>
    obtain ⟨a, b⟩ := e
    by_cases h : a = k
    · subst h
      by_cases h2 : a = k'
      · subst h2
        simpa [erase, find] using ih
      · simp [erase, find, h2, ih]
    · by_cases h2 : a = k'
      · subst h2
        simp [erase, find, h, Ne.symm h]
      · simp [erase, find, h, h2, ih]

theorem find_append (m : UMap κ α) (k k' : κ) (d : α) :
    find (m ++ [(k, d)]) k' =
      match find m k' with
      | some v => some v
      | none => if k = k' then some d else none := by
  induction m with
  | nil => simp [find]
  | cons e m ih =>
    obtain ⟨a, b⟩ := e
    by_cases h : a = k' <;> simp [find, h, ih]

theorem get_touch (m : UMap κ α) (k k' : κ) (d : α) :
    get (touch m k d) k' d = get m k' d := by
  unfold touch get
  cases h : find m k with
  | some v => simp
  | none =>
    simp only [find_append]
    cases h2 : find m k' with
    | some v => simp
    | none => by_cases h3 : k = k' <;> simp [h3]

theorem mem_keys_iff (m : UMap κ α) (k : κ) : k ∈ keys m ↔ find m k ≠ none := by
  induction m with
  | nil => simp [keys, find]
  | cons e m ih =>
    obtain ⟨a, b⟩ := e
    unfold keys at ih ⊢
    by_cases h : a = k
    · simp [find, h]
    · simp [find, h, ih]
      intro h2; exact absurd h2.symm h

theorem keys_touch_sub (m : UMap κ α) (k : κ) (d : α) : keys m ⊆ keys (touch m k d) := by
  unfold touch
  cases find m k with
  | some v => exact fun _ h => h
  | none => intro x hx; simp [keys] at hx ⊢; exact Or.inl hx

end UMap

theorem edges_touch (m : UMap Position (List Position)) (k : Position) :
    edges (UMap.touch m k []) = edges m := by
  funext p
  exact UMap.get_touch m k p []

theorem edges_ne_nil_mem_keys (m : UMap Position (List Position)) (p : Position)
    (h : edges m p ≠ []) : p ∈ UMap.keys m := by
  rw [UMap.mem_keys_iff]
  intro hn
  simp [edges, UMap.get, hn] at h

theorem forEach_rel {σ : Type} (R : σ → σ → Prop) (hrefl : ∀ s, R s s)
    (htrans : ∀ a b c, R a b → R b c → R a c)
    (f : σ → Position → Option (Bool × σ))
    (hf : ∀ st d b st1, f st d = some (b, st1) → R st st1) :
    ∀ (ds : List Position) (st : σ) (b : Bool) (st1 : σ),
      forEach f st ds = some (b, st1) → R st st1 := by
  intro ds
  induction ds with
  | nil =>
    intro st b st1 h
    simp only [forEach, Option.some.injEq, Prod.mk.injEq] at h
    rw [← h.2]; exact hrefl _
  | cons d ds ih =>
    intro st b st1 h
    simp only [forEach] at h
    cases hd : f st d with
    | none => simp [hd] at h
    | some r =>
      obtain ⟨b1, st2⟩ := r
      cases b1 with
      | true =>
        simp only [hd, Option.some.injEq, Prod.mk.injEq] at h
        rw [← h.2]; exact hf _ _ _ _ hd
      | false =>
        simp only [hd] at h
        exact htrans _ _ _ (hf _ _ _ _ hd) (ih _ _ _ h)

theorem dfs_mono (g : Position → List Position) (stop : Position → Bool) :
    ∀ (n : Nat) (V : List Position) (c : Position) (b : Bool) (V1 : List Position),
      dfs g stop n V c = some (b, V1) → V ⊆ V1 := by
  intro n
  induction n with
  | zero => intro V c b V1 h; simp [dfs] at h
  | succ n ih =>
    intro V c b V1 h
    simp only [dfs] at h
    split at h
    · simp only [Option.some.injEq, Prod.mk.injEq] at h
      rw [← h.2]; exact fun _ hx => hx
    · split at h
      · simp only [Option.some.injEq, Prod.mk.injEq] at h
        rw [← h.2]; exact fun _ hx => hx
      · have := forEach_rel (fun (a b : List Position) => a ⊆ b) (fun _ _ hx => hx)
          (fun a b c h1 h2 x hx => h2 (h1 hx)) (dfs g stop n) ih _ _ _ _ h
        exact fun x hx => this (List.mem_cons_of_mem _ hx)

theorem forEach_dfs_mono (g : Position → List Position) (stop : Position → Bool) (n : Nat)
    (ds V : List Position) (b : Bool) (V1 : List Position)
    (h : forEach (dfs g stop n) V ds = some (b, V1)) : V ⊆ V1 :=
  forEach_rel (fun (a b : List Position) => a ⊆ b) (fun _ _ hx => hx)
    (fun _ _ _ h1 h2 _ hx => h2 (h1 hx)) (dfs g stop n) (dfs_mono g stop n) _ _ _ _ h

theorem forEach_closes (g : Position → List Position) (stop : Position → Bool)
    (f : List Position → Position → Option (Bool × List Position))
    (hf : ∀ V c V1, f V c = some (false, V1) → Closes g stop V V1 [c]) :
    ∀ (ds V V1 : List Position), forEach f V ds = some (false, V1) → Closes g stop V V1 ds := by
  intro ds
  induction ds with
  | nil =>
    intro V V1 h
    simp only [forEach, Option.some.injEq, Prod.mk.injEq, true_and] at h
    subst h
    exact ⟨fun _ hx => hx, by simp, fun v hv hnv => absurd hv hnv⟩
  | cons d ds ih =>
    intro V V1 h
    simp only [forEach] at h
    cases hd : f V d with
    | none => simp [hd] at h
    | some r =>
      obtain ⟨b1, V2⟩ := r
      cases b1 with
      | true => simp [hd] at h
      | false =>
        simp only [hd] at h
        obtain ⟨a1, a2, a3⟩ := hf _ _ _ hd
        obtain ⟨b1, b2, b3⟩ := ih _ _ h
        refine ⟨fun x hx => b1 (a1 hx), ?_, ?_⟩
        · intro x hx
          rcases List.mem_cons.1 hx with rfl | hx
          · exact b1 (a2 _ (List.mem_singleton_self _))
          · exact b2 _ hx
        · intro v hv hnv
          by_cases hv2 : v ∈ V2
          · obtain ⟨c1, ⟨r, hr, c2⟩, c3⟩ := a3 v hv2 hnv
            rw [List.mem_singleton] at hr
            subst hr
            exact ⟨c1, ⟨r, List.mem_cons_self _ _, c2⟩, fun w hw => b1 (c3 w hw)⟩
          · obtain ⟨c1, ⟨r, hr, c2⟩, c3⟩ := b3 v hv hv2
            exact ⟨c1, ⟨r, List.mem_cons_of_mem _ hr, c2⟩, c3⟩

theorem dfs_closes (g : Position → List Position) (stop : Position → Bool) :
    ∀ (n : Nat) (V : List Position) (c : Position) (V1 : List Position),
      dfs g stop n V c = some (false, V1) → Closes g stop V V1 [c] := by
  intro n
  induction n with
  | zero => intro V c V1 h; simp [dfs] at h
  | succ n ih =>
    intro V c V1 h
    simp only [dfs] at h
    split at h
    · simp at h
    · rename_i hstop
      split at h
      · rename_i hc
        simp only [Option.some.injEq, Prod.mk.injEq, true_and] at h
        subst h
        exact ⟨fun _ hx => hx, by simpa using hc, fun v hv hnv => absurd hv hnv⟩
      · rename_i hc
        obtain ⟨a1, a2, a3⟩ := forEach_closes g stop (dfs g stop n) ih _ _ _ h
        have hcV : c ∈ V1 := a1 (List.mem_cons_self _ _)
        refine ⟨fun x hx => a1 (List.mem_cons_of_mem _ hx), by simpa using hcV, ?_⟩
        intro v hv hnv
        by_cases hvc : v = c
        · subst hvc
          exact ⟨by simpa using hstop, ⟨v, List.mem_singleton_self _, Relation.ReflTransGen.refl⟩, a2⟩
        · have : v ∉ c :: V := by simp [hvc, hnv]
          obtain ⟨c1, ⟨r, hr, c2⟩, c3⟩ := a3 v hv this
          exact ⟨c1, ⟨c, List.mem_singleton_self _, Relation.ReflTransGen.head hr c2⟩, c3⟩

theorem forEach_found (g : Position → List Position) (stop : Position → Bool)
    (f : List Position → Position → Option (Bool × List Position))
    (hf : ∀ V c V1, f V c = some (true, V1) → ∃ t, stop t = true ∧ Reach g c t) :
    ∀ (ds V V1 : List Position), forEach f V ds = some (true, V1) →
      ∃ d ∈ ds, ∃ t, stop t = true ∧ Reach g d t := by
  intro ds
  induction ds with
  | nil => intro V V1 h; simp [forEach] at h
  | cons d ds ih =>
    intro V V1 h
    simp only [forEach] at h
    cases hd : f V d with
    | none => simp [hd] at h
    | some r =>
      obtain ⟨b1, V2⟩ := r
      cases b1 with
      | true => exact ⟨d, List.mem_cons_self _ _, hf _ _ _ hd⟩
      | false =>
        simp only [hd] at h
        obtain ⟨x, hx, t⟩ := ih _ _ h
        exact ⟨x, List.mem_cons_of_mem _ hx, t⟩

theorem dfs_found (g : Position → List Position) (stop : Position → Bool) :
    ∀ (n : Nat) (V : List Position) (c : Position) (V1 : List Position),
      dfs g stop n V c = some (true, V1) → ∃ t, stop t = true ∧ Reach g c t := by
  intro n
  induction n with
  | zero => intro V c V1 h; simp [dfs] at h
  | succ n ih =>
    intro V c V1 h
    simp only [dfs] at h
    split at h
    · rename_i hstop
      exact ⟨c, hstop, Relation.ReflTransGen.refl⟩
    · split at h
      · simp at h
      · obtain ⟨d, hd, t, ht, hr⟩ := forEach_found g stop (dfs g stop n) ih _ _ _ h
        exact ⟨t, ht, Relation.ReflTransGen.head hd hr⟩

theorem unvisited_mono (nodes V V1 : List Position) (h : V ⊆ V1) :
    unvisited nodes V1 ≤ unvisited nodes V := by
  unfold unvisited
  apply List.countP_mono_left
  intro x _ hx
  simp only [decide_eq_true_eq] at hx ⊢
  exact fun hv => hx (h hv)

theorem unvisited_lt (nodes V : List Position) (c : Position) (hc : c ∈ nodes) (hV : c ∉ V) :
    unvisited nodes (c :: V) < unvisited nodes V := by
  unfold unvisited
  induction nodes with
  | nil => simp at hc
  | cons x xs ih =>
    have hmono : List.countP (fun x => decide (x ∉ c :: V)) xs ≤
        List.countP (fun x => decide (x ∉ V)) xs := unvisited_mono xs V (c :: V) (by simp)
    rw [List.countP_cons, List.countP_cons]
    by_cases hx : x = c
    · subst hx
      have e1 : decide (x ∉ x :: V) = false := by simp
      have e2 : decide (x ∉ V) = true := by simpa using hV
      rw [e1, e2]
      simp only [Bool.false_eq_true, ↓reduceIte, add_zero]
      omega
    · have hc2 : c ∈ xs := by
        rcases List.mem_cons.1 hc with h | h
        · exact absurd h.symm hx
        · exact h
      have h3 := ih hc2
      have e1 : decide (x ∉ c :: V) = decide (x ∉ V) := by simp [hx]
      rw [e1]
      omega

theorem forEach_total (nodes : List Position) (n : Nat)
    (f : List Position → Position → Option (Bool × List Position))
    (hmono : ∀ V c b V1, f V c = some (b, V1) → V ⊆ V1)
    (hf : ∀ V c, unvisited nodes V < n → f V c ≠ none) :
    ∀ (ds V : List Position), unvisited nodes V < n → forEach f V ds ≠ none := by
  intro ds
  induction ds with
  | nil => intro V _; simp [forEach]
  | cons d ds ih =>
    intro V hV
    simp only [forEach]
    cases hd : f V d with
    | none => exact absurd hd (hf V d hV)
    | some r =>
      obtain ⟨b1, V2⟩ := r
      cases b1 with
      | true => simp
      | false =>
        simp only
        exact ih V2 (lt_of_le_of_lt (unvisited_mono nodes V V2 (hmono _ _ _ _ hd)) hV)

theorem dfs_total (g : Position → List Position) (stop : Position → Bool)
    (nodes : List Position) (hnodes : ∀ v, g v ≠ [] → v ∈ nodes) :
    ∀ (n : Nat) (V : List Position) (c : Position),
      unvisited nodes V < n → dfs g stop n V c ≠ none := by
  intro n
  induction n with
  | zero => intro V c h; omega
  | succ n ih =>
    intro V c h
    simp only [dfs]
    split
    · simp
    · split
      · simp
      · rename_i hc
        by_cases hg : g c = []
        · simp [hg, forEach]
        · apply forEach_total nodes n (dfs g stop n) (dfs_mono g stop n) ih
          have := unvisited_lt nodes V c (hnodes c hg) hc
          omega

theorem unvisited_nil_le (nodes : List Position) : unvisited nodes [] ≤ nodes.length := by
  unfold unvisited
  exact List.countP_le_length _

/-- A set of positions closed under successors and free of `t` contains no node reaching `t`. -/
theorem not_reach_of_closed (g : Position → List Position) (V : List Position) (t : Position)
    (hclosed : ∀ v ∈ V, ∀ w ∈ g v, w ∈ V) (ht : t ∉ V) (d : Position) (hd : d ∈ V) :
    ¬ Reach g d t := by
  intro hr
  have : ∀ x, Reach g d x → x ∈ V := by
    intro x hx
    induction hx with
    | refl => exact hd
    | tail _ hstep ih => exact hclosed _ ih _ hstep
  exact ht (this t hr)

theorem forEach_sim {σ τ : Type} (f : σ → Position → Option (Bool × σ))
    (h : τ → Position → Option (Bool × τ)) (proj : σ → τ) (Inv : σ → Prop)
    (hsim : ∀ st d, Inv st → (f st d).map (fun r => (r.1, proj r.2)) = h (proj st) d)
    (hinv : ∀ st d b st1, Inv st → f st d = some (b, st1) → Inv st1) :
    ∀ (ds : List Position) (st : σ), Inv st →
      (forEach f st ds).map (fun r => (r.1, proj r.2)) = forEach h (proj st) ds := by
  intro ds
  induction ds with
  | nil => intro st _; simp [forEach]
  | cons d ds ih =>
    intro st hst
    have h1 := hsim st d hst
    simp only [forEach]
    cases hd : f st d with
    | none =>
      rw [hd] at h1
      simp only [Option.map_none'] at h1
      simp [← h1]
    | some r =>
      obtain ⟨b1, st2⟩ := r
      rw [hd] at h1
      simp only [Option.map_some'] at h1
      rw [← h1]
      cases b1 with
      | true => simp
      | false => simpa using ih st2 (hinv _ _ _ _ hst hd)

theorem Extends.refl_ext (m : UMap Position (List Position)) : Extends m m :=
  fun _ => Or.inl rfl

theorem Extends.trans_ext {a b c : UMap Position (List Position)} (h1 : Extends a b)
    (h2 : Extends b c) : Extends a c := by
  intro k
  rcases h1 k with e1 | ⟨e1, e1'⟩
  · rcases h2 k with e2 | ⟨e2, e2'⟩
    · exact Or.inl (e2.trans e1)
    · exact Or.inr ⟨e1 ▸ e2, e2'⟩
  · rcases h2 k with e2 | ⟨e2, e2'⟩
    · exact Or.inr ⟨e1, e2.trans e1'⟩
    · rw [e1'] at e2; cases e2

theorem Extends.edges_eq {m m1 : UMap Position (List Position)} (h : Extends m m1) :
    edges m1 = edges m := by
  funext p
  unfold edges UMap.get
  rcases h p with e | ⟨e1, e2⟩
  · rw [e]
  · rw [e1, e2]; rfl

theorem Extends.touch (m : UMap Position (List Position)) (k : Position) :
    Extends m (UMap.touch m k []) := by
  intro p
  unfold UMap.touch
  cases h : UMap.find m k with
  | some v => exact Or.inl rfl
  | none =>
    simp only [UMap.find_append]
    cases h2 : UMap.find m p with
    | some v => exact Or.inl rfl
    | none =>
      by_cases h3 : k = p
      · simp [h3]
      · simp [h3]

theorem hasCycle_extends (pos : Position) :
    ∀ (n : Nat) (st : UMap Position (List Position) × List Position) (c : Position) (b : Bool)
      (st1 : UMap Position (List Position) × List Position),
      hasCycle pos n st c = some (b, st1) → Extends st.1 st1.1 := by
  intro n
  induction n with
  | zero => intro st c b st1 h; simp [hasCycle] at h
  | succ n ih =>
    intro st c b st1 h
    obtain ⟨deps, V⟩ := st
    simp only [hasCycle] at h
    split at h
    · simp only [Option.some.injEq, Prod.mk.injEq] at h
      rw [← h.2]; exact Extends.refl_ext _
    · split at h
      · simp only [Option.some.injEq, Prod.mk.injEq] at h
        rw [← h.2]; exact Extends.refl_ext _
      · have := forEach_rel
          (fun (a b : UMap Position (List Position) × List Position) => Extends a.1 b.1)
          (fun _ => Extends.refl_ext _) (fun _ _ _ h1 h2 => Extends.trans_ext h1 h2)
          (hasCycle pos n) ih _ _ _ _ h
        exact Extends.trans_ext (Extends.touch deps c) this

theorem forEach_hasCycle_extends (pos : Position) (n : Nat) (ds : List Position)
    (st : UMap Position (List Position) × List Position) (b : Bool)
    (st1 : UMap Position (List Position) × List Position)
    (h : forEach (hasCycle pos n) st ds = some (b, st1)) : Extends st.1 st1.1 :=
  forEach_rel (fun (a b : UMap Position (List Position) × List Position) => Extends a.1 b.1)
    (fun _ => Extends.refl_ext _) (fun _ _ _ h1 h2 => Extends.trans_ext h1 h2)
    (hasCycle pos n) (hasCycle_extends pos n) _ _ _ _ h

theorem forEach_hasCycle_sim (pos : Position) (n : Nat)
    (deps0 : UMap Position (List Position))
    (ih : ∀ (deps : UMap Position (List Position)) (V : List Position) (c : Position),
      (hasCycle pos n (deps, V) c).map (fun r => (r.1, r.2.2)) =
        dfs (edges deps) (fun x => decide (x = pos)) n V c)
    (ds : List Position) (st : UMap Position (List Position) × List Position)
    (hst : Extends deps0 st.1) :
    (forEach (hasCycle pos n) st ds).map (fun r => (r.1, r.2.2)) =
      forEach (dfs (edges deps0) (fun x => decide (x = pos)) n) st.2 ds := by
  refine forEach_sim (hasCycle pos n) (dfs (edges deps0) (fun x => decide (x = pos)) n)
    Prod.snd (fun st => Extends deps0 st.1) ?_ ?_ ds st hst
  · intro st d hst
    obtain ⟨deps, V⟩ := st
    rw [ih deps V d, Extends.edges_eq hst]
  · intro st d b st1 hst hd
    exact Extends.trans_ext hst (hasCycle_extends pos n st d b st1 hd)

theorem hasCycle_sim (pos : Position) :
    ∀ (n : Nat) (deps : UMap Position (List Position)) (V : List Position) (c : Position),
      (hasCycle pos n (deps, V) c).map (fun r => (r.1, r.2.2)) =
        dfs (edges deps) (fun x => decide (x = pos)) n V c := by
  intro n
  induction n with
  | zero => intro deps V c; simp [hasCycle, dfs]
  | succ n ih =>
    intro deps V c
    simp only [hasCycle, dfs]
    by_cases h1 : c = pos
    · simp [h1]
    · by_cases h2 : c ∈ V
      · simp [h1, h2]
      · simp only [h1, h2, ↓reduceIte, decide_False, Bool.false_eq_true]
        have := forEach_hasCycle_sim pos n deps ih (UMap.get (UMap.touch deps c []) c [])
          (UMap.touch deps c [], c :: V) (Extends.touch deps c)
        rw [this]
        have e : UMap.get (UMap.touch deps c []) c [] = edges deps c := UMap.get_touch deps c c []
        rw [e]

/-- Outcome of `CheckCircularDependency`: it returns; only `dependencies_` can differ, by
default entries; it throws exactly when `pos` is reachable from one of `deps`. -/
theorem CheckCircularDependency_spec {E : Ext} (s : Sheet E) (pos : Position)
    (deps : List Position) :
    ∃ deps1 thrown, s.CheckCircularDependency pos deps =
        some ({ s with dependencies_ := deps1 }, thrown) ∧
      Extends s.dependencies_ deps1 ∧
      ((thrown = some .CircularDependencyException ∧
          ∃ d ∈ deps, Reach (edges s.dependencies_) d pos) ∨
        (thrown = none ∧ ∀ d ∈ deps, ¬ Reach (edges s.dependencies_) d pos)) := by
  have hsim := forEach_hasCycle_sim pos (s.dependencies_.length + 1) s.dependencies_
    (hasCycle_sim pos _) deps (s.dependencies_, []) (Extends.refl_ext _)
  have htot : forEach (dfs (edges s.dependencies_) (fun x => decide (x = pos))
      (s.dependencies_.length + 1)) [] deps ≠ none := by
    apply forEach_total (UMap.keys s.dependencies_) _ _ (dfs_mono _ _ _)
      (dfs_total _ _ _ (fun v hv => edges_ne_nil_mem_keys _ _ hv) _)
    have := unvisited_nil_le (UMap.keys s.dependencies_)
    simp only [UMap.keys, List.length_map] at this
    simp only [UMap.keys]
    omega
  unfold Sheet.CheckCircularDependency
  cases hfe : forEach (hasCycle pos (s.dependencies_.length + 1)) (s.dependencies_, []) deps with
  | none =>
    rw [hfe] at hsim
    simp only [Option.map_none'] at hsim
    exact absurd hsim.symm htot
  | some r =>
    obtain ⟨b, deps1, V1⟩ := r
    have hext := forEach_hasCycle_extends pos _ deps _ _ _ hfe
    rw [hfe] at hsim
    simp only [Option.map_some'] at hsim
    cases b with
    | true =>
      refine ⟨deps1, some .CircularDependencyException, rfl, hext, Or.inl ⟨rfl, ?_⟩⟩
      obtain ⟨d, hd, t, ht, hr⟩ := forEach_found _ _ _ (dfs_found _ _ _) _ _ _ hsim.symm
      simp only [decide_eq_true_eq] at ht
      subst ht
      exact ⟨d, hd, hr⟩
    | false =>
      refine ⟨deps1, none, rfl, hext, Or.inr ⟨rfl, ?_⟩⟩
      obtain ⟨_, a2, a3⟩ := forEach_closes _ _ _ (dfs_closes _ _ _) _ _ _ hsim.symm
      intro d hd
      apply not_reach_of_closed _ V1 pos (fun v hv => (a3 v hv (by simp)).2.2) _ d (a2 d hd)
      intro hpos
      have := (a3 pos hpos (by simp)).1
      simp at this

theorem edges_assign (m : UMap Position (List Position)) (k : Position) (v : List Position)
    (p : Position) : edges (UMap.assign m k v) p = if k = p then v else edges m p := by
  unfold edges UMap.get
  rw [UMap.find_assign]
  by_cases h : k = p <;> simp [h]

theorem mem_edges_removeReverse (pos : Position) :
    ∀ (old : List Position) (rev : UMap Position (List Position)) (p d : Position),
      p ∈ edges (removeReverse pos rev old) d ↔ p ∈ edges rev d ∧ ¬ (p = pos ∧ d ∈ old) := by
  intro old
  induction old with
  | nil => intro rev p d; simp [removeReverse]
  | cons o rest ih =>
    intro rev p d
    simp only [removeReverse]
    rw [ih, edges_assign]
    by_cases h : o = d
    · subst h
      simp only [↓reduceIte, List.mem_filter, decide_eq_true_eq, List.mem_cons, true_or, and_true]
      constructor
      · rintro ⟨⟨h1, h2⟩, _⟩
        exact ⟨h1, h2⟩
      · rintro ⟨h1, h2⟩
        exact ⟨⟨h1, h2⟩, fun h3 => h2 h3.1⟩
    · simp only [h, ↓reduceIte, List.mem_cons, and_congr_right_iff]
      intro _
      constructor
      · rintro h1 ⟨h2, h3 | h3⟩
        · exact h h3.symm
        · exact h1 ⟨h2, h3⟩
      · rintro h1 ⟨h2, h3⟩
        exact h1 ⟨h2, Or.inr h3⟩

theorem mem_edges_addReverse (pos : Position) :
    ∀ (new : List Position) (rev : UMap Position (List Position)) (p d : Position),
      p ∈ edges (addReverse pos rev new) d ↔ p ∈ edges rev d ∨ (p = pos ∧ d ∈ new) := by
  intro new
  induction new with
  | nil => intro rev p d; simp [addReverse]
  | cons o rest ih =>
    intro rev p d
    simp only [addReverse]
    rw [ih, edges_assign]
    by_cases h : o = d
    · subst h
      simp only [↓reduceIte, List.mem_append, List.mem_singleton, List.mem_cons, true_or, and_true]
      have : UMap.get rev o [] = edges rev o := rfl
      rw [this]
      tauto
    · simp only [h, ↓reduceIte, List.mem_cons]
      have : ¬ d = o := fun e => h e.symm
      tauto

theorem UpdateDependencies_inverse {E : Ext} (s : Sheet E) (pos : Position)
    (new_deps : List Position) (h : Inverse s.dependencies_ s.reverse_dependencies_) :
    Inverse (s.UpdateDependencies pos new_deps).dependencies_
      (s.UpdateDependencies pos new_deps).reverse_dependencies_ := by
  intro p d
  simp only [Sheet.UpdateDependencies]
  rw [mem_edges_addReverse, mem_edges_removeReverse, edges_assign, h p d]
  have e : UMap.get s.dependencies_ pos [] = edges s.dependencies_ pos := rfl
  rw [e]
  by_cases hp : pos = p
  · subst hp
    simp only [true_and, ↓reduceIte]
    tauto
  · have : ¬ p = pos := fun e => hp e.symm
    simp only [this, false_and, not_false_eq_true, and_true, or_false, hp, ↓reduceIte]

theorem reach_update (g : Position → List Position) (pos : Position) (new : List Position)
    (a b : Position) (h : Reach (fun p => if pos = p then new else g p) a b) :
    Reach g a b ∨ ∃ d ∈ new, Reach g d b := by
  induction h with
  | refl => exact Or.inl Relation.ReflTransGen.refl
  | @tail x y _ hstep ih =>
    by_cases hx : pos = x
    · simp only [hx, ↓reduceIte] at hstep
      exact Or.inr ⟨y, hstep, Relation.ReflTransGen.refl⟩
    · simp only [hx, ↓reduceIte] at hstep
      rcases ih with ih | ⟨d, hd, ih⟩
      · exact Or.inl (Relation.ReflTransGen.tail ih hstep)
      · exact Or.inr ⟨d, hd, Relation.ReflTransGen.tail ih hstep⟩

theorem path_update (g : Position → List Position) (pos : Position) (new : List Position)
    (a b : Position) (h : Path (fun p => if pos = p then new else g p) a b) :
    Path g a b ∨ (Reach (fun p => if pos = p then new else g p) a pos ∧
      Path (fun p => if pos = p then new else g p) pos b) := by
  induction h with
  | @single y hstep =>
    by_cases hx : pos = a
    · subst hx
      exact Or.inr ⟨Relation.ReflTransGen.refl, Relation.TransGen.single hstep⟩
    · have h2 := hstep
      simp only [hx, ↓reduceIte] at h2
      exact Or.inl (Relation.TransGen.single h2)
  | @tail x y hab hstep ih =>
    rcases ih with ih | ⟨h1, h2⟩
    · by_cases hx : pos = x
      · subst hx
        exact Or.inr ⟨Relation.TransGen.to_reflTransGen hab, Relation.TransGen.single hstep⟩
      · have h2 := hstep
        simp only [hx, ↓reduceIte] at h2
        exact Or.inl (Relation.TransGen.tail ih h2)
    · exact Or.inr ⟨h1, Relation.TransGen.tail h2 hstep⟩

theorem acyclic_update (g : Position → List Position) (pos : Position) (new : List Position)
    (hg : Acyclic g) (hnew : ∀ d ∈ new, ¬ Reach g d pos) :
    Acyclic (fun p => if pos = p then new else g p) := by
  have hpos : ¬ Path (fun p => if pos = p then new else g p) pos pos := by
    intro h
    obtain ⟨d, hd, hr⟩ := (Relation.TransGen.head'_iff).1 h
    simp only [↓reduceIte] at hd
    rcases reach_update g pos new d pos hr with h1 | ⟨d1, hd1, h1⟩
    · exact hnew d hd h1
    · exact hnew d1 hd1 h1
  intro p h
  rcases path_update g pos new p p h with h1 | ⟨h1, h2⟩
  · exact hg p h1
  · exact hpos (Relation.TransGen.trans_left h2 h1)

theorem edges_assign_fun (m : UMap Position (List Position)) (k : Position)
    (v : List Position) :
    edges (UMap.assign m k v) = fun p => if k = p then v else edges m p := by
  funext p
  exact edges_assign m k v p

theorem forEach_sim_mem {σ τ : Type} (f : σ → Position → Option (Bool × σ))
    (h : τ → Position → Option (Bool × τ)) (proj : σ → τ) (Inv : σ → Prop)
    (hinv : ∀ st d b st1, Inv st → f st d = some (b, st1) → Inv st1) :
    ∀ (ds : List Position) (st : σ), Inv st →
      (∀ st d, d ∈ ds → Inv st → (f st d).map (fun r => (r.1, proj r.2)) = h (proj st) d) →
      (forEach f st ds).map (fun r => (r.1, proj r.2)) = forEach h (proj st) ds := by
  intro ds
  induction ds with
  | nil => intro st _ _; simp [forEach]
  | cons d ds ih =>
    intro st hst hsim
    have h1 := hsim st d (List.mem_cons_self _ _) hst
    simp only [forEach]
    cases hd : f st d with
    | none =>
      rw [hd] at h1
      simp only [Option.map_none'] at h1
      simp [← h1]
    | some r =>
      obtain ⟨b1, st2⟩ := r
      rw [hd] at h1
      simp only [Option.map_some'] at h1
      rw [← h1]
      cases b1 with
      | true => simp
      | false =>
        simpa using ih st2 (hinv _ _ _ _ hst hd)
          (fun st d hd hst => hsim st d (List.mem_cons_of_mem _ hd) hst)

namespace UMap
variable {κ α : Type} [DecidableEq κ]

theorem keys_assign_of_find (m : UMap κ α) (k : κ) (v w : α) (h : find m k = some w) :
    keys (assign m k v) = keys m := by
  induction m with
  | nil => simp [find] at h
  | cons e m ih =>
    obtain ⟨a, b⟩ := e
    by_cases hk : a = k
    · simp [assign, keys, hk]
    · simp only [find, hk, ↓reduceIte] at h
      have := ih h
      simp only [keys] at this
      simp [assign, keys, hk, this]

theorem keys_assign_of_not_find (m : UMap κ α) (k : κ) (v : α) (h : find m k = none) :
    keys (assign m k v) = keys m ++ [k] := by
  induction m with
  | nil => simp [assign, keys]
  | cons e m ih =>
    obtain ⟨a, b⟩ := e
    by_cases hk : a = k
    · simp [find, hk] at h
    · simp only [find, hk, ↓reduceIte] at h
      have := ih h
      simp only [keys] at this
      simp [assign, keys, hk, this]

end UMap

theorem Framed.refl_framed {E : Ext} (st : Sheet E × List Position) : Framed st st :=
  ⟨fun _ h => h, Extends.refl_ext _, rfl, rfl, rfl, rfl, rfl, rfl, fun q => by
    by_cases h : q ∈ st.2 <;> simp [h]⟩

theorem Framed.trans_framed {E : Ext} {a b c : Sheet E × List Position} (h1 : Framed a b)
    (h2 : Framed b c) : Framed a c := by
  refine ⟨fun _ h => h2.visited (h1.visited h), Extends.trans_ext h1.rev h2.rev,
    h2.deps.trans h1.deps, h2.rows.trans h1.rows, h2.cols.trans h1.cols,
    h2.row_counts.trans h1.row_counts, h2.col_counts.trans h1.col_counts,
    h2.keys.trans h1.keys, ?_⟩
  intro q
  rw [h2.cells q, h1.cells q]
  by_cases hv : q.IsValid E = true
  · by_cases hb : q ∈ b.2
    · have hc : q ∈ c.2 := h2.visited hb
      simp [hb, hc, hv]
    · have ha : q ∉ a.2 := fun h => hb (h1.visited h)
      simp [hb, ha, hv]
  · simp [hv]

theorem invalidate_framed {E : Ext} :
    ∀ (n : Nat) (st : Sheet E × List Position) (c : Position) (b : Bool)
      (st1 : Sheet E × List Position), invalidate n st c = some (b, st1) → Framed st st1 := by
  intro n
  induction n with
  | zero => intro st c b st1 h; simp [invalidate] at h
  | succ n ih =>
    intro st c b st1 h
    obtain ⟨s, V⟩ := st
    simp only [invalidate] at h
    split at h
    · simp only [Option.some.injEq, Prod.mk.injEq] at h
      rw [← h.2]; exact Framed.refl_framed _
    · rename_i hc
      unfold Sheet.GetCell InvalidPositionCheck at h
      by_cases hv : c.IsValid E = true
      · simp only [hv, ↓reduceIte] at h
        have hrest := forEach_rel (fun (a b : Sheet E × List Position) => Framed a b)
          Framed.refl_framed (fun _ _ _ h1 h2 => Framed.trans_framed h1 h2) (invalidate n) ih _ _ _ _ h
        refine Framed.trans_framed ?_ hrest
        cases hf : UMap.find s.cells_ c with
        | none =>
          refine ⟨by simp, Extends.touch _ _, rfl, rfl, rfl, rfl, rfl, rfl, ?_⟩
          intro q
          by_cases hq : q = c
          · subst hq; simp [hf]
          · by_cases hqV : q ∈ V <;> simp [hq, hqV]
        | some cell =>
          refine ⟨by simp, Extends.touch _ _, rfl, rfl, rfl, rfl, rfl,
            UMap.keys_assign_of_find _ _ _ _ hf, ?_⟩
          intro q
          simp only [UMap.find_assign]
          by_cases hq : c = q
          · subst hq; simp [hf, hc, hv]
          · have : ¬ q = c := fun e => hq e.symm
            by_cases hqV : q ∈ V <;> simp [hq, this, hqV]
      · simp only [hv, Bool.false_eq_true, ↓reduceIte, Option.some.injEq, Prod.mk.injEq] at h
        rw [← h.2]
        refine ⟨by simp, Extends.refl_ext _, rfl, rfl, rfl, rfl, rfl, rfl, ?_⟩
        intro q
        by_cases hq : q = c
        · subst hq; simp [hv]
        · by_cases hqV : q ∈ V <;> simp [hq, hqV]

theorem invalidate_sim {E : Ext} :
    ∀ (n : Nat) (s : Sheet E) (V : List Position) (c : Position),
      c.IsValid E = true →
      (∀ p q, q ∈ edges s.reverse_dependencies_ p → q.IsValid E = true) →
      (invalidate n (s, V) c).map (fun r => (r.1, r.2.2)) =
        dfs (edges s.reverse_dependencies_) (fun _ => false) n V c := by
  intro n
  induction n with
  | zero => intro s V c _ _; simp [invalidate, dfs]
  | succ n ih =>
    intro s V c hc hrev
    simp only [invalidate, dfs]
    by_cases h2 : c ∈ V
    · simp [h2]
    · simp only [h2, ↓reduceIte, Bool.false_eq_true]
      unfold Sheet.GetCell InvalidPositionCheck
      simp only [hc, ↓reduceIte]
      have e : ∀ (m : UMap Position (List Position)),
          UMap.get (UMap.touch m c []) c [] = edges m c := fun m => UMap.get_touch m c c []
      simp only [e]
      have key : ∀ (s2 : Sheet E), Extends s.reverse_dependencies_ s2.reverse_dependencies_ →
          (forEach (invalidate n) (s2, c :: V) (edges s.reverse_dependencies_ c)).map
            (fun r => (r.1, r.2.2)) =
          forEach (dfs (edges s.reverse_dependencies_) (fun _ => false) n) (c :: V)
            (edges s.reverse_dependencies_ c) := by
        intro s2 hs2
        refine forEach_sim_mem (invalidate n)
          (dfs (edges s.reverse_dependencies_) (fun _ => false) n) Prod.snd
          (fun st => Extends s.reverse_dependencies_ st.1.reverse_dependencies_) ?_ _
          (s2, c :: V) hs2 ?_
        · intro st d b st1 hst hd
          exact Extends.trans_ext hst (invalidate_framed n st d b st1 hd).rev
        · intro st d hd hst
          obtain ⟨s3, V3⟩ := st
          have he := Extends.edges_eq hst
          simp only at he
          rw [ih s3 V3 d (hrev _ _ hd) (by rw [he]; exact hrev), he]
      cases hf : UMap.find s.cells_ c with
      | none => exact key _ (Extends.touch _ _)
      | some cell => exact key _ (Extends.touch _ _)

theorem reach_mem_of_closed (g : Position → List Position) (V : List Position)
    (hclosed : ∀ v ∈ V, ∀ w ∈ g v, w ∈ V) (d : Position) (hd : d ∈ V) (x : Position)
    (hx : Reach g d x) : x ∈ V := by
  induction hx with
  | refl => exact hd
  | tail _ hstep ih => exact hclosed _ ih _ hstep

theorem reach_valid {E : Ext} (g : Position → List Position) (pos : Position)
    (hpos : pos.IsValid E = true) (hg : ∀ p q, q ∈ g p → q.IsValid E = true) (x : Position)
    (hx : Reach g pos x) : x.IsValid E = true := by
  induction hx with
  | refl => exact hpos
  | tail _ hstep _ => exact hg _ _ hstep

/-- Outcome of `InvalidateCacheForDependents` when every position it meets is valid: it
returns without throwing, and exactly the cells reachable from `pos` along reverse edges
have their cache dropped. -/
theorem InvalidateCacheForDependents_spec {E : Ext} (s : Sheet E) (pos : Position)
    (hpos : pos.IsValid E = true)
    (hrev : ∀ p q, q ∈ edges s.reverse_dependencies_ p → q.IsValid E = true) :
    ∃ s1, s.InvalidateCacheForDependents pos = some (s1, none) ∧
      Extends s.reverse_dependencies_ s1.reverse_dependencies_ ∧
      s1.dependencies_ = s.dependencies_ ∧ s1.rows_ = s.rows_ ∧ s1.cols_ = s.cols_ ∧
      s1.row_counts_ = s.row_counts_ ∧ s1.col_counts_ = s.col_counts_ ∧
      UMap.keys s1.cells_ = UMap.keys s.cells_ ∧
      ∀ q, (Reach (edges s.reverse_dependencies_) pos q →
          UMap.find s1.cells_ q = (UMap.find s.cells_ q).map Cell.InvalidateCache) ∧
        (¬ Reach (edges s.reverse_dependencies_) pos q →
          UMap.find s1.cells_ q = UMap.find s.cells_ q) := by
  have hsim := invalidate_sim (s.reverse_dependencies_.length + 1) s [] pos hpos hrev
  have htot : dfs (edges s.reverse_dependencies_) (fun _ => false)
      (s.reverse_dependencies_.length + 1) [] pos ≠ none := by
    apply dfs_total _ _ (UMap.keys s.reverse_dependencies_)
      (fun v hv => edges_ne_nil_mem_keys _ _ hv)
    have := unvisited_nil_le (UMap.keys s.reverse_dependencies_)
    simp only [UMap.keys, List.length_map] at this
    simp only [UMap.keys]
    omega
  unfold Sheet.InvalidateCacheForDependents
  cases hfe : invalidate (s.reverse_dependencies_.length + 1) (s, []) pos with
  | none =>
    rw [hfe] at hsim
    simp only [Option.map_none'] at hsim
    exact absurd hsim.symm htot
  | some r =>
    obtain ⟨b, s1, V1⟩ := r
    have hfr := invalidate_framed _ _ _ _ _ hfe
    rw [hfe] at hsim
    simp only [Option.map_some'] at hsim
    cases b with
    | true =>
      obtain ⟨t, ht, _⟩ := dfs_found _ _ _ _ _ _ hsim.symm
      simp at ht
    | false =>
      obtain ⟨_, a2, a3⟩ := dfs_closes _ _ _ _ _ _ hsim.symm
      have hclosed : ∀ v ∈ V1, ∀ w ∈ edges s.reverse_dependencies_ v, w ∈ V1 :=
        fun v hv => (a3 v hv (by simp)).2.2
      have hposV : pos ∈ V1 := a2 pos (List.mem_singleton_self _)
      refine ⟨s1, rfl, hfr.rev, hfr.deps, hfr.rows, hfr.cols, hfr.row_counts, hfr.col_counts,
        hfr.keys, ?_⟩
      intro q
      have hc := hfr.cells q
      simp only [List.not_mem_nil, not_false_eq_true, true_and] at hc
      constructor
      · intro hq
        have h1 : q ∈ V1 := reach_mem_of_closed _ V1 hclosed pos hposV q hq
        have h2 : q.IsValid E = true := reach_valid _ pos hpos hrev q hq
        rw [hc]; simp [h1, h2]
      · intro hq
        have h1 : q ∉ V1 := by
          intro hmem
          obtain ⟨_, ⟨d, hd, hr⟩, _⟩ := a3 q hmem (by simp)
          rw [List.mem_singleton] at hd
          subst hd
          exact hq hr
        rw [hc]; simp [h1]

namespace UMap
variable {κ α : Type} [DecidableEq κ]

theorem keys_erase (m : UMap κ α) (k : κ) :
    keys (erase m k) = (keys m).filter (fun x => !decide (x = k)) := by
  induction m with
  | nil => simp [erase, keys]
  | cons e m ih =>
    obtain ⟨a, b⟩ := e
    simp only [keys] at ih
    by_cases h : a = k
    · simp [erase, keys, h, ih]
    · simp [erase, keys, h, ih]

theorem get_assign (m : UMap κ α) (k k' : κ) (v d : α) :
    get (assign m k v) k' d = if k = k' then v else get m k' d := by
  unfold get
  rw [find_assign]
  by_cases h : k = k' <;> simp [h]

theorem get_erase (m : UMap κ α) (k k' : κ) (d : α) :
    get (erase m k) k' d = if k = k' then d else get m k' d := by
  unfold get
  rw [find_erase]
  by_cases h : k = k' <;> simp [h]

end UMap

theorem mem_setInsert (s : List Int) (x r : Int) : r ∈ setInsert s x ↔ r = x ∨ r ∈ s := by
  unfold setInsert
  split
  · rename_i h
    constructor
    · exact fun h1 => Or.inr h1
    · rintro (h1 | h1)
      · rw [h1]; exact h
      · exact h1
  · simp

theorem mem_setErase (s : List Int) (x r : Int) : r ∈ setErase s x ↔ r ∈ s ∧ r ≠ x := by
  simp [setErase]

theorem CountsOk.inc (proj : Position → Int) (ks : List Position) (set : List Int)
    (cnt : UMap Int Int) (pos : Position) (h : CountsOk proj ks set cnt) :
    CountsOk proj (ks ++ [pos])
      (if UMap.get cnt (proj pos) 0 = 0 then setInsert set (proj pos) else set)
      (UMap.assign cnt (proj pos) (UMap.get cnt (proj pos) 0 + 1)) := by
  intro r
  obtain ⟨h1, h2⟩ := h r
  obtain ⟨h3, h4⟩ := h (proj pos)
  rw [UMap.get_assign, List.countP_append]
  simp only [List.countP_cons, List.countP_nil, zero_add]
  by_cases hr : proj pos = r
  · subst hr
    simp only [↓reduceIte, decide_True, Nat.cast_add, Nat.cast_one]
    refine ⟨by omega, ?_⟩
    split
    · rw [mem_setInsert]; simp
    · rename_i hne
      have : 0 < List.countP (fun k => decide (proj k = proj pos)) ks := by omega
      simp [h2, this]
  · have hr2 : ¬ r = proj pos := fun e => hr e.symm
    simp only [hr, ↓reduceIte, decide_False, Bool.false_eq_true, add_zero]
    refine ⟨h1, ?_⟩
    split
    · rw [mem_setInsert]; simp [hr2, h2]
    · exact h2

theorem countP_filter_ne (proj : Position → Int) (r : Int) (pos : Position) :
    ∀ (ks : List Position), ks.Nodup → pos ∈ ks →
      (ks.filter (fun x => !decide (x = pos))).countP (fun k => decide (proj k = r)) + (if proj pos = r then 1 else 0) =
        ks.countP (fun k => decide (proj k = r)) := by
  intro ks
  induction ks with
  | nil => intro _ h; simp at h
  | cons x xs ih =>
    intro hnd hmem
    rw [List.nodup_cons] at hnd
    by_cases hx : x = pos
    · subst hx
      have hfil : xs.filter (fun y => !decide (y = x)) = xs := by
        rw [List.filter_eq_self]
        intro a ha
        have : a ≠ x := fun e => hnd.1 (e ▸ ha)
        simp [this]
      rw [List.filter_cons]
      simp only [decide_True, Bool.not_true, Bool.false_eq_true, ↓reduceIte, hfil,
        List.countP_cons, decide_eq_true_eq]
    · have hmem2 : pos ∈ xs := by
        rcases List.mem_cons.1 hmem with h | h
        · exact absurd h.symm hx
        · exact h
      have := ih hnd.2 hmem2
      rw [List.filter_cons]
      simp only [hx, decide_False, Bool.not_false, ↓reduceIte, List.countP_cons,
        decide_eq_true_eq]
      omega

theorem CountsOk.dec_erase (proj : Position → Int) (ks : List Position) (set : List Int)
    (cnt : UMap Int Int) (pos : Position) (h : CountsOk proj ks set cnt) (hnd : ks.Nodup)
    (hmem : pos ∈ ks) (hz : UMap.get cnt (proj pos) 0 - 1 = 0) :
    CountsOk proj (ks.filter (fun x => !decide (x = pos))) (setErase set (proj pos))
      (UMap.erase cnt (proj pos)) := by
  intro r
  obtain ⟨h1, h2⟩ := h r
  obtain ⟨h3, h4⟩ := h (proj pos)
  have hc := countP_filter_ne proj r pos ks hnd hmem
  rw [UMap.get_erase, mem_setErase]
  by_cases hr : proj pos = r
  · subst hr
    simp only [↓reduceIte] at hc ⊢
    have : List.countP (fun k => decide (proj k = proj pos))
        (List.filter (fun x => !decide (x = pos)) ks) = 0 := by omega
    simp [this]
  · have hr2 : ¬ r = proj pos := fun e => hr e.symm
    simp only [hr, ↓reduceIte, add_zero] at hc ⊢
    rw [hc]
    exact ⟨h1, by simp [h2, hr2]⟩

theorem CountsOk.dec_assign (proj : Position → Int) (ks : List Position) (set : List Int)
    (cnt : UMap Int Int) (pos : Position) (h : CountsOk proj ks set cnt) (hnd : ks.Nodup)
    (hmem : pos ∈ ks) (hz : ¬ UMap.get cnt (proj pos) 0 - 1 = 0) :
    CountsOk proj (ks.filter (fun x => !decide (x = pos))) set
      (UMap.assign cnt (proj pos) (UMap.get cnt (proj pos) 0 - 1)) := by
  intro r
  obtain ⟨h1, h2⟩ := h r
  obtain ⟨h3, h4⟩ := h (proj pos)
  have hc := countP_filter_ne proj r pos ks hnd hmem
  rw [UMap.get_assign]
  by_cases hr : proj pos = r
  · subst hr
    simp only [↓reduceIte] at hc ⊢
    refine ⟨by omega, ?_⟩
    rw [h2]
    omega
  · simp only [hr, ↓reduceIte, add_zero] at hc ⊢
    rw [hc]
    exact ⟨h1, h2⟩

/-- Effect of `ClearCell` at a valid position holding a cell: the cell is erased, the
bookkeeping follows, the dependency maps stay as they are. -/
theorem ClearCell_found {E : Ext} (s : Sheet E) (pos : Position) (c : Cell E)
    (hpos : pos.IsValid E = true) (hc : UMap.find s.cells_ pos = some c)
    (hnd : (UMap.keys s.cells_).Nodup)
    (hrow : CountsOk Position.row (UMap.keys s.cells_) s.rows_ s.row_counts_)
    (hcol : CountsOk Position.col (UMap.keys s.cells_) s.cols_ s.col_counts_) :
    ∃ s1, s.ClearCell pos = (s1, none) ∧ s1.cells_ = UMap.erase s.cells_ pos ∧
      s1.dependencies_ = s.dependencies_ ∧
      s1.reverse_dependencies_ = s.reverse_dependencies_ ∧
      CountsOk Position.row (UMap.keys s1.cells_) s1.rows_ s1.row_counts_ ∧
      CountsOk Position.col (UMap.keys s1.cells_) s1.cols_ s1.col_counts_ := by
  have hmem : pos ∈ UMap.keys s.cells_ := by
    rw [UMap.mem_keys_iff, hc]; simp
  unfold Sheet.ClearCell InvalidPositionCheck
  simp only [hpos, ↓reduceIte, hc]
  refine ⟨_, rfl, ?_⟩
  by_cases hr : UMap.get s.row_counts_ pos.row 0 - 1 = 0
  · by_cases hcc : UMap.get s.col_counts_ pos.col 0 - 1 = 0
    · simp only [hr, hcc, ↓reduceIte, UMap.keys_erase, true_and]
      exact ⟨CountsOk.dec_erase _ _ _ _ pos hrow hnd hmem hr,
        CountsOk.dec_erase _ _ _ _ pos hcol hnd hmem hcc⟩
    · simp only [hr, hcc, ↓reduceIte, UMap.keys_erase, true_and]
      exact ⟨CountsOk.dec_erase _ _ _ _ pos hrow hnd hmem hr,
        CountsOk.dec_assign _ _ _ _ pos hcol hnd hmem hcc⟩
  · by_cases hcc : UMap.get s.col_counts_ pos.col 0 - 1 = 0
    · simp only [hr, hcc, ↓reduceIte, UMap.keys_erase, true_and]
      exact ⟨CountsOk.dec_assign _ _ _ _ pos hrow hnd hmem hr,
        CountsOk.dec_erase _ _ _ _ pos hcol hnd hmem hcc⟩
    · simp only [hr, hcc, ↓reduceIte, UMap.keys_erase, true_and]
      exact ⟨CountsOk.dec_assign _ _ _ _ pos hrow hnd hmem hr,
        CountsOk.dec_assign _ _ _ _ pos hcol hnd hmem hcc⟩

theorem ClearCell_absent {E : Ext} (s : Sheet E) (pos : Position)
    (hpos : pos.IsValid E = true) (hc : UMap.find s.cells_ pos = none) :
    s.ClearCell pos = (s, none) := by
  unfold Sheet.ClearCell InvalidPositionCheck
  simp [hpos, hc]

theorem ClearCell_invalid {E : Ext} (s : Sheet E) (pos : Position)
    (hpos : ¬ pos.IsValid E = true) :
    s.ClearCell pos = (s, some .InvalidPositionException) := by
  unfold Sheet.ClearCell InvalidPositionCheck
  simp [hpos]

theorem UpdateSheetSize_counts {E : Ext} (s : Sheet E) (pos : Position) (ks : List Position)
    (hrow : CountsOk Position.row ks s.rows_ s.row_counts_)
    (hcol : CountsOk Position.col ks s.cols_ s.col_counts_) :
    CountsOk Position.row (ks ++ [pos]) (s.UpdateSheetSize pos).rows_
        (s.UpdateSheetSize pos).row_counts_ ∧
      CountsOk Position.col (ks ++ [pos]) (s.UpdateSheetSize pos).cols_
        (s.UpdateSheetSize pos).col_counts_ ∧
      (s.UpdateSheetSize pos).cells_ = s.cells_ ∧
      (s.UpdateSheetSize pos).dependencies_ = s.dependencies_ ∧
      (s.UpdateSheetSize pos).reverse_dependencies_ = s.reverse_dependencies_ := by
  unfold Sheet.UpdateSheetSize
  exact ⟨CountsOk.inc _ _ _ _ pos hrow, CountsOk.inc _ _ _ _ pos hcol, rfl, rfl, rfl⟩

theorem Similar.refl_similar {E : Ext} (s : Sheet E) : Similar s s :=
  ⟨Extends.refl_ext _, Extends.refl_ext _, rfl, rfl, rfl, rfl, rfl, fun _ => rfl⟩

theorem Similar.trans_similar {E : Ext} {a b c : Sheet E} (h1 : Similar a b) (h2 : Similar b c) :
    Similar a c :=
  ⟨Extends.trans_ext h1.deps h2.deps, Extends.trans_ext h1.rev h2.rev, h2.rows.trans h1.rows,
    h2.cols.trans h1.cols, h2.row_counts.trans h1.row_counts,
    h2.col_counts.trans h1.col_counts, h2.keys.trans h1.keys,
    fun q => (h2.impl q).trans (h1.impl q)⟩

theorem reads_eq_of_impl {E : Ext} (s s1 : Sheet E) (p : Position)
    (h : (UMap.find s1.cells_ p).map Cell.impl_ = (UMap.find s.cells_ p).map Cell.impl_) :
    reads s1 p = reads s p := by
  unfold reads
  cases h1 : UMap.find s1.cells_ p with
  | none =>
    cases h2 : UMap.find s.cells_ p with
    | none => rfl
    | some c => rw [h1, h2] at h; simp at h
  | some c1 =>
    cases h2 : UMap.find s.cells_ p with
    | none => rw [h1, h2] at h; simp at h
    | some c =>
      rw [h1, h2] at h
      simp only [Option.map_some', Option.some.injEq] at h
      simp only [Cell.GetReferencedCells, h]

theorem Similar.reads {E : Ext} {s s1 : Sheet E} (h : Similar s s1) (p : Position) :
    reads s1 p = reads s p :=
  reads_eq_of_impl s s1 p (h.impl p)

theorem Inv.of_similar {E : Ext} {s s1 : Sheet E} (hs : Inv s) (h : Similar s s1) : Inv s1 := by
  have e1 := Extends.edges_eq h.deps
  have e2 := Extends.edges_eq h.rev
  refine ⟨?_, ?_, ?_, ?_, ?_, ?_, ?_, ?_⟩
  · rw [e1]; exact hs.acyclic
  · intro p d
    rw [e1, e2]; exact hs.inverse p d
  · rw [e1]; exact hs.sources
  · intro p d
    rw [e1, h.reads]; exact hs.reads_sub p d
  · rw [h.keys]; exact hs.nodup
  · rw [h.keys, h.rows, h.row_counts]; exact hs.rows
  · rw [h.keys, h.cols, h.col_counts]; exact hs.cols
  · rw [h.keys]; exact hs.keys_valid

theorem storeCache_similar {E : Ext} (s : Sheet E) (pos : Position)
    (v : Value E.Num E.FormulaError) : Similar s (s.storeCache pos v) := by
  unfold Sheet.storeCache
  cases h : UMap.find s.cells_ pos with
  | none => exact Similar.refl_similar s
  | some c =>
    refine ⟨Extends.refl_ext _, Extends.refl_ext _, rfl, rfl, rfl, rfl,
      UMap.keys_assign_of_find _ _ _ _ h, ?_⟩
    intro q
    simp only [UMap.find_assign]
    by_cases hq : pos = q
    · subst hq; simp [h]
    · simp [hq]

theorem readCells_similar {E : Ext}
    (gv : Sheet E → Position → Option (Sheet E × Option (Value E.Num E.FormulaError)))
    (hgv : ∀ s p s1 v, gv s p = some (s1, v) → Similar s s1) :
    ∀ (ps : List Position) (s s1 : Sheet E) vals,
      readCells gv s ps = some (s1, vals) → Similar s s1 := by
  intro ps
  induction ps with
  | nil =>
    intro s s1 vals h
    simp only [readCells, Option.some.injEq, Prod.mk.injEq] at h
    rw [← h.1]; exact Similar.refl_similar s
  | cons p ps ih =>
    intro s s1 vals h
    simp only [readCells] at h
    cases h1 : gv s p with
    | none => simp [h1] at h
    | some r =>
      obtain ⟨s2, v⟩ := r
      simp only [h1] at h
      cases h2 : readCells gv s2 ps with
      | none => simp [h2] at h
      | some r2 =>
        obtain ⟨s3, vals3⟩ := r2
        simp only [h2, Option.some.injEq, Prod.mk.injEq] at h
        rw [← h.1]
        exact Similar.trans_similar (hgv _ _ _ _ h1) (ih _ _ _ h2)

theorem GetValue_similar {E : Ext} :
    ∀ (n : Nat) (s : Sheet E) (pos : Position) (s1 : Sheet E)
      (v : Option (Value E.Num E.FormulaError)),
      Sheet.GetValue n s pos = some (s1, v) → Similar s s1 := by
  intro n
  induction n with
  | zero => intro s pos s1 v h; simp [Sheet.GetValue] at h
  | succ n ih =>
    intro s pos s1 v h
    simp only [Sheet.GetValue] at h
    cases hc : UMap.find s.cells_ pos with
    | none =>
      simp only [hc, Option.some.injEq, Prod.mk.injEq] at h
      rw [← h.1]; exact Similar.refl_similar s
    | some cell =>
      simp only [hc] at h
      split at h
      · simp only [Option.some.injEq, Prod.mk.injEq] at h
        rw [← h.1]; exact Similar.refl_similar s
      · split at h
        · simp only [Option.some.injEq, Prod.mk.injEq] at h
          rw [← h.1]; exact storeCache_similar _ _ _
        · simp only [Option.some.injEq, Prod.mk.injEq] at h
          rw [← h.1]; exact storeCache_similar _ _ _
        · rename_i e formula _
          cases hr : readCells (Sheet.GetValue n) s (E.GetCells formula) with
          | none => simp [hr] at h
          | some r =>
            obtain ⟨s2, vals⟩ := r
            simp only [hr, Option.some.injEq, Prod.mk.injEq] at h
            rw [← h.1]
            exact Similar.trans_similar (readCells_similar _ ih _ _ _ _ hr) (storeCache_similar _ _ _)

theorem Inv.empty (E : Ext) : Inv (Sheet.empty E) := by
  refine ⟨?_, ?_, ?_, ?_, ?_, ?_, ?_, ?_⟩
  · intro p h
    obtain ⟨d, hd, _⟩ := (Relation.TransGen.head'_iff).1 h
    simp [Sheet.empty, edges, UMap.get, UMap.find] at hd
  · intro p d; simp [Sheet.empty, edges, UMap.get, UMap.find]
  · intro p d h; simp [Sheet.empty, edges, UMap.get, UMap.find] at h
  · intro p d h; simp [Sheet.empty, reads, UMap.find] at h
  · simp [Sheet.empty, UMap.keys]
  · intro r; simp [Sheet.empty, UMap.keys, UMap.get, UMap.find]
  · intro r; simp [Sheet.empty, UMap.keys, UMap.get, UMap.find]
  · intro p h; simp [Sheet.empty, UMap.keys] at h

theorem ClearCell_inv {E : Ext} (s : Sheet E) (pos : Position) (hs : Inv s) :
    Inv (s.ClearCell pos).1 := by
  by_cases hpos : pos.IsValid E = true
  · cases hc : UMap.find s.cells_ pos with
    | none => rw [ClearCell_absent s pos hpos hc]; exact hs
    | some c =>
      obtain ⟨s1, h1, h2, h3, h4, h5, h6⟩ :=
        ClearCell_found s pos c hpos hc hs.nodup hs.rows hs.cols
      rw [h1]
      refine ⟨by rw [h3]; exact hs.acyclic, by rw [h3, h4]; exact hs.inverse,
        by rw [h3]; exact hs.sources, ?_, ?_, h5, h6, ?_⟩
      · intro p d hd
        rw [h3]
        apply hs.reads_sub p d
        unfold reads at hd ⊢
        rw [h2, UMap.find_erase] at hd
        by_cases hp : pos = p
        · simp [hp] at hd
        · simpa [hp] using hd
      · rw [h2, UMap.keys_erase]
        exact hs.nodup.filter _
      · intro p hp
        rw [h2, UMap.keys_erase] at hp
        exact hs.keys_valid p (List.mem_filter.1 hp).1
  · rw [ClearCell_invalid s pos hpos]; exact hs

theorem Cell_Set_result {E : Ext} (s : Sheet E) (cell : Cell E) (pos : Position)
    (text : String) :
    ∃ r, Cell.Set s cell pos text = some r ∧ SetResult s cell pos text r := by
  unfold Cell.Set
  cases ht : text.data with
  | nil => exact ⟨_, rfl, SetResult.empty ht⟩
  | cons c rest =>
    simp only
    by_cases hc : c = FORMULA_SIGN
    · subst hc
      simp only [↓reduceIte]
      unfold ParseFormula
      cases hp : E.ParseFormulaAST (String.mk rest) with
      | none => exact ⟨_, rfl, SetResult.parseError rest ht hp⟩
      | some formula =>
        simp only
        by_cases hv : (Formula.GetReferencedCells E formula).any (fun dep => !dep.IsValid E) = true
        · simp only [hv, ↓reduceIte]
          refine ⟨_, rfl, SetResult.badReference rest formula ht hp ?_⟩
          rw [List.any_eq_true] at hv
          obtain ⟨d, hd, hd2⟩ := hv
          exact ⟨d, hd, by simpa using hd2⟩
        · simp only [hv, Bool.false_eq_true, ↓reduceIte]
          have hvalid : ∀ d ∈ Formula.GetReferencedCells E formula, d.IsValid E = true := by
            intro d hd
            by_contra hn
            apply hv
            rw [List.any_eq_true]
            exact ⟨d, hd, by simpa using hn⟩
          obtain ⟨deps1, thrown, h1, h2, h3⟩ :=
            CheckCircularDependency_spec s pos (Formula.GetReferencedCells E formula)
          rw [h1]
          rcases h3 with ⟨h3, h4⟩ | ⟨h3, h4⟩
          · subst h3
            exact ⟨_, rfl, SetResult.cycle rest formula deps1 ht hp hvalid h2 h4⟩
          · subst h3
            exact ⟨_, rfl, SetResult.formula rest formula deps1 ht hp hvalid h2 h4⟩
    · simp only [hc, ↓reduceIte]
      by_cases he : c = ESCAPE_SIGN
      · subst he
        simp only [↓reduceIte]
        exact ⟨_, rfl, SetResult.escaped rest ht⟩
      · simp only [he, ↓reduceIte]
        exact ⟨_, rfl, SetResult.plain c rest ht hc he⟩

/-- Effect of the second half of `SetCell` on a sheet whose reverse edges lead to valid
positions only: it returns without throwing; the new cell sits at `pos`; among the other
cells exactly those reachable from `pos` along reverse edges have their cache dropped. -/
theorem installCell_spec {E : Ext} (s0 : Sheet E) (pos : Position) (cell : Cell E)
    (hpos : pos.IsValid E = true)
    (hrev : ∀ p q, q ∈ edges s0.reverse_dependencies_ p → q.IsValid E = true)
    (hnd : (UMap.keys s0.cells_).Nodup)
    (hrow : CountsOk Position.row (UMap.keys s0.cells_) s0.rows_ s0.row_counts_)
    (hcol : CountsOk Position.col (UMap.keys s0.cells_) s0.cols_ s0.col_counts_) :
    ∃ s5, s0.installCell pos cell = some (s5, none) ∧
      s5.dependencies_ = s0.dependencies_ ∧
      Extends s0.reverse_dependencies_ s5.reverse_dependencies_ ∧
      (UMap.keys s5.cells_).Nodup ∧
      CountsOk Position.row (UMap.keys s5.cells_) s5.rows_ s5.row_counts_ ∧
      CountsOk Position.col (UMap.keys s5.cells_) s5.cols_ s5.col_counts_ ∧
      UMap.find s5.cells_ pos = some cell.InvalidateCache ∧
      ∀ q, q ≠ pos →
        (Reach (edges s0.reverse_dependencies_) pos q →
          UMap.find s5.cells_ q = (UMap.find s0.cells_ q).map Cell.InvalidateCache) ∧
        (¬ Reach (edges s0.reverse_dependencies_) pos q →
          UMap.find s5.cells_ q = UMap.find s0.cells_ q) := by
  have hclear : ∃ s2, (if (UMap.find s0.cells_ pos).isSome then s0.ClearCell pos else (s0, none))
        = (s2, none) ∧ s2.dependencies_ = s0.dependencies_ ∧
      s2.reverse_dependencies_ = s0.reverse_dependencies_ ∧
      UMap.find s2.cells_ pos = none ∧ (∀ q, q ≠ pos → UMap.find s2.cells_ q = UMap.find s0.cells_ q) ∧
      (UMap.keys s2.cells_).Nodup ∧
      CountsOk Position.row (UMap.keys s2.cells_) s2.rows_ s2.row_counts_ ∧
      CountsOk Position.col (UMap.keys s2.cells_) s2.cols_ s2.col_counts_ := by
    cases hc : UMap.find s0.cells_ pos with
    | none =>
      exact ⟨s0, by simp, rfl, rfl, hc, fun _ _ => rfl, hnd, hrow, hcol⟩
    | some c =>
      obtain ⟨s1, h1, h2, h3, h4, h5, h6⟩ := ClearCell_found s0 pos c hpos hc hnd hrow hcol
      refine ⟨s1, by simp [h1], h3, h4, ?_, ?_, ?_, h5, h6⟩
      · rw [h2, UMap.find_erase]; simp
      · intro q hq
        rw [h2, UMap.find_erase]
        have : ¬ pos = q := fun e => hq e.symm
        simp [this]
      · rw [h2, UMap.keys_erase]
        exact hnd.filter _
  obtain ⟨s2, hcl, hd2, hr2, hf2, hq2, hnd2, hrow2, hcol2⟩ := hclear
  unfold Sheet.installCell
  simp only [hcl]
  have hrev3 : ∀ p q, q ∈ edges ({ s2 with cells_ := UMap.assign s2.cells_ pos cell } :
      Sheet E).reverse_dependencies_ p → q.IsValid E = true := by
    intro p q h
    simp only [hr2] at h
    exact hrev p q h
  obtain ⟨s4, h4, hrev4, hdeps4, hrows4, hcols4, hrc4, hcc4, hkeys4, hcells4⟩ :=
    InvalidateCacheForDependents_spec
      ({ s2 with cells_ := UMap.assign s2.cells_ pos cell } : Sheet E) pos hpos hrev3
  simp only [h4]
  simp only [hr2] at hrev4 hcells4
  have hk3 : UMap.keys (UMap.assign s2.cells_ pos cell) = UMap.keys s2.cells_ ++ [pos] :=
    UMap.keys_assign_of_not_find _ _ _ hf2
  simp only [hk3] at hkeys4
  obtain ⟨u1, u2, u3, u4, u5⟩ := UpdateSheetSize_counts s4 pos (UMap.keys s2.cells_)
    (by rw [hrows4, hrc4]; exact hrow2) (by rw [hcols4, hcc4]; exact hcol2)
  have hposnot : pos ∉ UMap.keys s2.cells_ := by
    rw [UMap.mem_keys_iff, hf2]; simp
  refine ⟨_, rfl, by rw [u4, hdeps4, hd2], by rw [u5]; exact hrev4, ?_, ?_, ?_, ?_, ?_⟩
  · rw [u3, hkeys4]
    rw [List.nodup_append]
    refine ⟨hnd2, by simp, ?_⟩
    intro a ha hb
    rw [List.mem_singleton] at hb
    subst hb
    exact hposnot ha
  · rw [u3, hkeys4]; exact u1
  · rw [u3, hkeys4]; exact u2
  · rw [u3, (hcells4 pos).1 Relation.ReflTransGen.refl, UMap.find_assign]
    simp
  · intro q hq
    have hne : ¬ pos = q := fun e => hq e.symm
    have e3 : UMap.find (UMap.assign s2.cells_ pos cell) q = UMap.find s0.cells_ q := by
      rw [UMap.find_assign]
      simp only [hne, ↓reduceIte]
      exact hq2 q hq
    rw [u3]
    constructor
    · intro h
      rw [(hcells4 q).1 h]
      simp only [e3]
    · intro h
      rw [(hcells4 q).2 h]
      simp only [e3]

theorem SetCell_invalid {E : Ext} (s : Sheet E) (pos : Position) (text : String)
    (hpos : ¬ pos.IsValid E = true) :
    s.SetCell pos text = some (s, some .InvalidPositionException) := by
  unfold Sheet.SetCell InvalidPositionCheck
  simp [hpos]

theorem SetCell_empty {E : Ext} (s : Sheet E) (pos : Position) (text : String)
    (hpos : pos.IsValid E = true) (ht : text.data = []) :
    s.SetCell pos text = some (s.ClearCell pos) := by
  unfold Sheet.SetCell InvalidPositionCheck
  simp [hpos, ht]

theorem SetCell_error {E : Ext} (s : Sheet E) (pos : Position) (text : String)
    (hpos : pos.IsValid E = true) (ht : text.data ≠ []) (s1 : Sheet E) (e : Exception)
    (h : Cell.Set s (Cell.new E) pos text = some (s1, .error e)) :
    s.SetCell pos text = some (s1, some e) := by
  unfold Sheet.SetCell InvalidPositionCheck
  simp [hpos, ht, h]

theorem SetCell_ok {E : Ext} (s : Sheet E) (pos : Position) (text : String)
    (hpos : pos.IsValid E = true) (ht : text.data ≠ []) (s1 : Sheet E) (cell : Cell E)
    (h : Cell.Set s (Cell.new E) pos text = some (s1, .ok cell)) :
    s.SetCell pos text = s1.installCell pos cell := by
  unfold Sheet.SetCell InvalidPositionCheck
  simp [hpos, ht, h]

theorem rev_valid_of {E : Ext} (fwd rev : UMap Position (List Position))
    (hinv : Inverse fwd rev) (hsrc : ∀ p d, d ∈ edges fwd p → p.IsValid E = true) :
    ∀ p q, q ∈ edges rev p → q.IsValid E = true :=
  fun p q h => hsrc q p ((hinv q p).1 h)

theorem reads_invalidate {E : Ext} (c : Cell E) :
    c.InvalidateCache.GetReferencedCells = c.GetReferencedCells := rfl

/-- The second half of `SetCell` returns without throwing and re-establishes the invariant;
the new cell sits at `pos`, and among the other cells exactly those reachable from `pos`
along reverse edges have their cache dropped. -/
theorem installCell_inv {E : Ext} (s0 : Sheet E) (pos : Position) (cell : Cell E)
    (hpos : pos.IsValid E = true) (h0 : Ready s0 pos cell) :
    ∃ s5, s0.installCell pos cell = some (s5, none) ∧ Inv s5 ∧
      s5.dependencies_ = s0.dependencies_ ∧
      Extends s0.reverse_dependencies_ s5.reverse_dependencies_ ∧
      UMap.find s5.cells_ pos = some cell.InvalidateCache ∧
      ∀ q, q ≠ pos →
        (Reach (edges s0.reverse_dependencies_) pos q →
          UMap.find s5.cells_ q = (UMap.find s0.cells_ q).map Cell.InvalidateCache) ∧
        (¬ Reach (edges s0.reverse_dependencies_) pos q →
          UMap.find s5.cells_ q = UMap.find s0.cells_ q) := by
  obtain ⟨s5, h1, h2, h3, h4, h5, h6, h7, h8⟩ := installCell_spec s0 pos cell hpos
    (rev_valid_of _ _ h0.inverse h0.sources) h0.nodup h0.rows h0.cols
  have e3 := Extends.edges_eq h3
  refine ⟨s5, h1, ⟨?_, ?_, ?_, ?_, h4, h5, h6, ?_⟩, h2, h3, h7, h8⟩
  · rw [h2]; exact h0.acyclic
  · intro p d
    rw [h2, e3]; exact h0.inverse p d
  · rw [h2]; exact h0.sources
  · intro p d hd
    rw [h2]
    by_cases hp : p = pos
    · subst hp
      apply h0.covers
      simpa [reads, h7, reads_invalidate] using hd
    · apply h0.reads_sub p hp
      have : reads s5 p = reads s0 p := by
        apply reads_eq_of_impl
        by_cases hr : Reach (edges s0.reverse_dependencies_) pos p
        · rw [((h8 p hp).1 hr)]
          cases UMap.find s0.cells_ p <;> rfl
        · rw [((h8 p hp).2 hr)]
      rw [← this]; exact hd
  · intro p hp
    by_cases hpp : p = pos
    · rw [hpp]; exact hpos
    · apply h0.keys_valid
      rw [UMap.mem_keys_iff] at hp ⊢
      intro hn
      apply hp
      by_cases hr : Reach (edges s0.reverse_dependencies_) pos p
      · rw [((h8 p hpp).1 hr), hn]; rfl
      · rw [((h8 p hpp).2 hr), hn]

/-- A sheet and cell that `Cell::Set` returned normally are ready for the second half of
`SetCell`; the cell map is the one before the call. -/
theorem SetResult.ready {E : Ext} {s s0 : Sheet E} {pos : Position} {text : String}
    {c0 cell : Cell E} (hs : Inv s) (hpos : pos.IsValid E = true)
    (hres : SetResult s c0 pos text (s0, .ok cell)) :
    Ready s0 pos cell ∧ s0.cells_ = s.cells_ := by
  have hplain : ∀ (c : Cell E), c.GetReferencedCells = [] → Ready s pos c := fun c hc =>
    ⟨hs.acyclic, hs.inverse, hs.sources, fun p _ => hs.reads_sub p,
      by intro d hd; rw [hc] at hd; simp at hd, hs.nodup, hs.rows, hs.cols, hs.keys_valid⟩
  generalize hr : (s0, (Except.ok cell : Except Exception (Cell E))) = r at hres
  cases hres with
  | empty _ =>
    simp only [Prod.mk.injEq, Except.ok.injEq] at hr
    obtain ⟨rfl, rfl⟩ := hr
    exact ⟨hplain _ rfl, rfl⟩
  | parseError rest _ _ => simp at hr
  | badReference rest formula _ _ _ => simp at hr
  | cycle rest formula deps1 _ _ _ _ _ => simp at hr
  | formula rest formula deps1 _ _ hvalid hext hno =>
    simp only [Prod.mk.injEq, Except.ok.injEq] at hr
    obtain ⟨rfl, rfl⟩ := hr
    have e1 := Extends.edges_eq hext
    have hs1 : Inv ({ s with dependencies_ := deps1 } : Sheet E) :=
      hs.of_similar ⟨hext, Extends.refl_ext _, rfl, rfl, rfl, rfl, rfl, fun _ => rfl⟩
    have hdeps : edges (Sheet.UpdateDependencies ({ s with dependencies_ := deps1 } : Sheet E)
        pos (Formula.GetReferencedCells E formula)).dependencies_ =
        fun p => if pos = p then Formula.GetReferencedCells E formula else edges deps1 p :=
      edges_assign_fun _ _ _
    refine ⟨⟨?_, UpdateDependencies_inverse _ _ _ hs1.inverse, ?_, ?_, ?_,
      hs.nodup, hs.rows, hs.cols, hs.keys_valid⟩, rfl⟩
    · rw [hdeps]; exact acyclic_update _ _ _ hs1.acyclic (by rw [e1]; exact hno)
    · intro p d hd
      rw [hdeps] at hd
      by_cases hp : pos = p
      · rw [← hp]; exact hpos
      · simp only [hp, ↓reduceIte] at hd
        exact hs1.sources p d hd
    · intro p hp d hd
      rw [hdeps]
      have : ¬ pos = p := fun e => hp e.symm
      simp only [this, ↓reduceIte]
      exact hs1.reads_sub p d hd
    · intro d hd
      rw [hdeps]
      simpa [Cell.GetReferencedCells] using hd
  | escaped rest _ =>
    simp only [Prod.mk.injEq, Except.ok.injEq] at hr
    obtain ⟨rfl, rfl⟩ := hr
    exact ⟨hplain _ rfl, rfl⟩
  | plain c rest _ _ _ =>
    simp only [Prod.mk.injEq, Except.ok.injEq] at hr
    obtain ⟨rfl, rfl⟩ := hr
    exact ⟨hplain _ rfl, rfl⟩

/-- A sheet that `Cell::Set` left behind when it threw differs from the one before the call
only by default entries of `dependencies_`. -/
theorem SetResult.rejected {E : Ext} {s s0 : Sheet E} {pos : Position} {text : String}
    {c0 : Cell E} {e : Exception} (hres : SetResult s c0 pos text (s0, .error e)) :
    ∃ deps1, s0 = { s with dependencies_ := deps1 } ∧ Extends s.dependencies_ deps1 := by
  generalize hr : (s0, (Except.error e : Except Exception (Cell E))) = r at hres
  cases hres with
  | empty _ => simp at hr
  | parseError rest _ _ =>
    simp only [Prod.mk.injEq] at hr
    exact ⟨s.dependencies_, hr.1, Extends.refl_ext _⟩
  | badReference rest formula _ _ _ =>
    simp only [Prod.mk.injEq] at hr
    exact ⟨s.dependencies_, hr.1, Extends.refl_ext _⟩
  | cycle rest formula deps1 _ _ _ hext _ =>
    simp only [Prod.mk.injEq] at hr
    exact ⟨deps1, hr.1, hext⟩
  | formula rest formula deps1 _ _ _ _ _ => simp at hr
  | escaped rest _ => simp at hr
  | plain c rest _ _ _ => simp at hr

/-- On a sheet satisfying the invariant, `SetCell` at a valid position with a non-empty text
returns: either `Cell::Set` threw and the exception is passed on, or the new cell is
installed and nothing is thrown. -/
theorem SetCell_nonempty {E : Ext} (s : Sheet E) (pos : Position) (text : String)
    (hs : Inv s) (hpos : pos.IsValid E = true) (ht : text.data ≠ []) :
    ∃ s0 r, SetResult s (Cell.new E) pos text (s0, r) ∧
      ((∃ e, r = .error e ∧ s.SetCell pos text = some (s0, some e)) ∨
       (∃ cell s5, r = .ok cell ∧ s.SetCell pos text = some (s5, none) ∧
          s0.installCell pos cell = some (s5, none))) := by
  obtain ⟨r, hr, hres⟩ := Cell_Set_result s (Cell.new E) pos text
  obtain ⟨s0, r0⟩ := r
  refine ⟨s0, r0, hres, ?_⟩
  cases r0 with
  | error e => exact Or.inl ⟨e, rfl, SetCell_error s pos text hpos ht _ _ hr⟩
  | ok cell =>
    obtain ⟨s5, h5, _⟩ := installCell_inv s0 pos cell hpos (hres.ready hs hpos).1
    exact Or.inr ⟨cell, s5, rfl, by rw [SetCell_ok s pos text hpos ht _ _ hr, h5], h5⟩

theorem SetCell_total {E : Ext} (s : Sheet E) (pos : Position) (text : String) (hs : Inv s) :
    ∃ r, s.SetCell pos text = some r := by
  by_cases hpos : pos.IsValid E = true
  · by_cases ht : text.data = []
    · exact ⟨_, SetCell_empty s pos text hpos ht⟩
    · obtain ⟨s0, r, _, h | h⟩ := SetCell_nonempty s pos text hs hpos ht
      · obtain ⟨e, _, h⟩ := h
        exact ⟨_, h⟩
      · obtain ⟨cell, s5, _, h, _⟩ := h
        exact ⟨_, h⟩
  · exact ⟨_, SetCell_invalid s pos text hpos⟩

theorem SetCell_inv {E : Ext} (s : Sheet E) (pos : Position) (text : String) (s1 : Sheet E)
    (thrown : Option Exception) (hs : Inv s) (h : s.SetCell pos text = some (s1, thrown)) :
    Inv s1 := by
  by_cases hpos : pos.IsValid E = true
  · by_cases ht : text.data = []
    · rw [SetCell_empty s pos text hpos ht] at h
      simp only [Option.some.injEq] at h
      have := ClearCell_inv s pos hs
      rw [h] at this
      exact this
    · obtain ⟨s0, r, hres, h1 | h1⟩ := SetCell_nonempty s pos text hs hpos ht
      · obtain ⟨e, rfl, h1⟩ := h1
        rw [h1] at h
        simp only [Option.some.injEq, Prod.mk.injEq] at h
        obtain ⟨deps1, hd1, hext⟩ := hres.rejected
        rw [← h.1, hd1]
        exact hs.of_similar ⟨hext, Extends.refl_ext _, rfl, rfl, rfl, rfl, rfl, fun _ => rfl⟩
      · obtain ⟨cell, s5, rfl, h1, h2⟩ := h1
        rw [h1] at h
        simp only [Option.some.injEq, Prod.mk.injEq] at h
        obtain ⟨s6, h6, hinv6, _⟩ := installCell_inv s0 pos cell hpos (hres.ready hs hpos).1
        rw [h2] at h6
        simp only [Option.some.injEq, Prod.mk.injEq, and_true] at h6
        rw [← h.1, h6]; exact hinv6
  · rw [SetCell_invalid s pos text hpos] at h
    simp only [Option.some.injEq, Prod.mk.injEq] at h
    rw [← h.1]; exact hs

theorem Reachable.inv {E : Ext} {s : Sheet E} (h : Reachable E s) : Inv s := by
  induction h with
  | empty => exact Inv.empty E
  | setCell pos text _ hstep ih => exact SetCell_inv _ pos text _ _ ih hstep
  | clearCell pos _ hstep ih =>
    have := ClearCell_inv _ pos ih
    rw [hstep] at this
    exact this
  | getValue fuel pos _ _ hstep ih => exact ih.of_similar (GetValue_similar _ _ _ _ _ hstep)

theorem reachable_afterSet (s : Sheet sampleExt) (pos : Position) (text : String)
    (h : Reachable sampleExt s) : Reachable sampleExt (afterSet s pos text) := by
  unfold afterSet
  cases hr : s.SetCell pos text with
  | none => exact h
  | some r =>
    obtain ⟨s1, t⟩ := r
    exact Reachable.setCell pos text h hr

theorem reachable_afterGet (s : Sheet sampleExt) (pos : Position)
    (hpos : pos.IsValid sampleExt = true)
    (h : Reachable sampleExt s) : Reachable sampleExt (afterGet s pos) := by
  unfold afterGet
  cases hr : Sheet.GetValue 8 s pos with
  | none => exact h
  | some r =>
    obtain ⟨s1, t⟩ := r
    exact Reachable.getValue 8 pos h hpos hr

theorem reachable_afterClear (s : Sheet sampleExt) (pos : Position)
    (h : Reachable sampleExt s) : Reachable sampleExt (afterClear s pos) :=
  Reachable.clearCell pos h (rfl : s.ClearCell pos = ((s.ClearCell pos).1, (s.ClearCell pos).2))

theorem reachable_sheetA : Reachable sampleExt sheetA :=
  reachable_afterSet _ _ _ Reachable.empty

theorem reachable_sheetB : Reachable sampleExt sheetB :=
  reachable_afterSet _ _ _ Reachable.empty

theorem reachable_sheetCached : Reachable sampleExt sheetCached :=
  reachable_afterGet _ _ (by decide) (reachable_afterSet _ _ _ reachable_sheetA)

theorem reach_reads_edges {E : Ext} {s : Sheet E} (hs : Inv s) (a b : Position)
    (h : Reach (reads s) a b) : Reach (edges s.dependencies_) a b :=
  Relation.ReflTransGen.mono (fun x y hxy => hs.reads_sub x y hxy) h

theorem reach_reverse {fwd rev : UMap Position (List Position)} (hinv : Inverse fwd rev)
    (a b : Position) (h : Reach (edges fwd) a b) : Reach (edges rev) b a := by
  induction h with
  | refl => exact Relation.ReflTransGen.refl
  | @tail x y _ hstep ih => exact Relation.ReflTransGen.head ((hinv x y).2 hstep) ih

theorem data_ne_nil_of_ne_empty (text : String) (h : text ≠ "") : text.data ≠ [] := by
  intro hd
  apply h
  cases text
  simp only at hd
  subst hd
  rfl

theorem escape_ne_formula : ESCAPE_SIGN ≠ FORMULA_SIGN := by decide

theorem ClearCell_valid_thrown {E : Ext} (s : Sheet E) (pos : Position)
    (hpos : pos.IsValid E = true) : (s.ClearCell pos).2 = none := by
  unfold Sheet.ClearCell InvalidPositionCheck
  simp only [hpos, ↓reduceIte]
  cases UMap.find s.cells_ pos <;> rfl

theorem setRbegin_none (l : List Int) : setRbegin l = none ↔ l = [] := by
  cases l with
  | nil => simp [setRbegin]
  | cons x xs =>
    simp only [setRbegin]
    cases setRbegin xs <;> simp

theorem setRbegin_some (l : List Int) (m : Int) (h : setRbegin l = some m) :
    m ∈ l ∧ ∀ x ∈ l, x ≤ m := by
  induction l generalizing m with
  | nil => simp [setRbegin] at h
  | cons x xs ih =>
    simp only [setRbegin] at h
    cases hxs : setRbegin xs with
    | none =>
      rw [hxs] at h
      simp only [Option.some.injEq] at h
      subst h
      have : xs = [] := (setRbegin_none xs).1 hxs
      subst this
      simp
    | some m1 =>
      rw [hxs] at h
      simp only [Option.some.injEq] at h
      subst h
      obtain ⟨h1, h2⟩ := ih m1 hxs
      constructor
      · rcases le_total x m1 with hle | hle
        · rw [max_eq_right hle]; exact List.mem_cons_of_mem _ h1
        · rw [max_eq_left hle]; exact List.mem_cons_self _ _
      · intro y hy
        rcases List.mem_cons.1 hy with rfl | hy
        · exact le_max_left _ _
        · exact le_trans (h2 y hy) (le_max_right _ _)

theorem CountsOk.mem_iff {proj : Position → Int} {ks : List Position} {set : List Int}
    {cnt : UMap Int Int} (h : CountsOk proj ks set cnt) (r : Int) :
    r ∈ set ↔ ∃ k ∈ ks, proj k = r := by
  rw [(h r).2, List.countP_pos_iff]
  simp

/-- The extent `GetPrintableSize` returns on a sheet satisfying the invariant. -/
theorem printable_size_of_inv {E : Ext} (s : Sheet E) (hs : Inv s) :
    (s.cells_ = [] → s.GetPrintableSize = (0, 0)) ∧
    (s.cells_ ≠ [] → ∃ pr ∈ UMap.keys s.cells_, ∃ pc ∈ UMap.keys s.cells_,
      s.GetPrintableSize = (pr.row + 1, pc.col + 1) ∧
      (∀ k ∈ UMap.keys s.cells_, k.row ≤ pr.row ∧ k.col ≤ pc.col) ∧
      pr.row + 1 ≤ E.MAX_ROWS ∧ pc.col + 1 ≤ E.MAX_COLS) := by
  constructor
  · intro h
    have : s.rows_ = [] := by
      apply List.eq_nil_iff_forall_not_mem.2
      intro r hr
      obtain ⟨k, hk, _⟩ := (hs.rows.mem_iff r).1 hr
      simp [h, UMap.keys] at hk
    simp [Sheet.GetPrintableSize, this, setRbegin]
  · intro h
    obtain ⟨k0, hk0⟩ : ∃ k0, k0 ∈ UMap.keys s.cells_ := by
      cases hc : s.cells_ with
      | nil => exact absurd hc h
      | cons e m => exact ⟨e.1, by simp [UMap.keys]⟩
    have hr0 : k0.row ∈ s.rows_ := (hs.rows.mem_iff _).2 ⟨k0, hk0, rfl⟩
    have hc0 : k0.col ∈ s.cols_ := (hs.cols.mem_iff _).2 ⟨k0, hk0, rfl⟩
    cases hmr : setRbegin s.rows_ with
    | none => rw [(setRbegin_none _).1 hmr] at hr0; simp at hr0
    | some mr =>
      cases hmc : setRbegin s.cols_ with
      | none => rw [(setRbegin_none _).1 hmc] at hc0; simp at hc0
      | some mc =>
        obtain ⟨a1, a2⟩ := setRbegin_some _ _ hmr
        obtain ⟨b1, b2⟩ := setRbegin_some _ _ hmc
        obtain ⟨pr, hpr, hpr2⟩ := (hs.rows.mem_iff mr).1 a1
        obtain ⟨pc, hpc, hpc2⟩ := (hs.cols.mem_iff mc).1 b1
        refine ⟨pr, hpr, pc, hpc, ?_, ?_, ?_, ?_⟩
        · simp [Sheet.GetPrintableSize, hmr, hmc, hpr2, hpc2]
        · intro k hk
          rw [hpr2, hpc2]
          exact ⟨a2 _ ((hs.rows.mem_iff _).2 ⟨k, hk, rfl⟩),
            b2 _ ((hs.cols.mem_iff _).2 ⟨k, hk, rfl⟩)⟩
        · have := hs.keys_valid pr hpr
          simp only [Position.IsValid, Bool.and_eq_true, decide_eq_true_eq] at this
          omega
        · have := hs.keys_valid pc hpc
          simp only [Position.IsValid, Bool.and_eq_true, decide_eq_true_eq] at this
          omega

/-- C1. Acyclicity invariant: in every sheet reachable from the empty sheet by `SetCell`
(accepted or rejected), `ClearCell` and `GetValue` calls, the forward dependency graph
`dependencies_` has no cycle: no position has a non-empty path back to itself, self-loops
included. -/
theorem C1_dependencies_acyclic (E : Ext) (s : Sheet E) (hs : Reachable E s) (p : Position) :
    ¬ Path (edges s.dependencies_) p p :=
  hs.inv.acyclic p

/-- Instance of C1 on the sheet after `SetCell(A1, "=B1")`, at the position A1. -/
theorem C1_dependencies_acyclic_witness :
    edges sheetA.dependencies_ A1 = [B1] ∧ ¬ Path (edges sheetA.dependencies_) A1 A1 :=
  ⟨by decide, C1_dependencies_acyclic sampleExt sheetA reachable_sheetA A1⟩

/-- C2, as the claim states it, fails: on the empty sheet the formula `=A1+XFE1` at A1
refers to A1 itself, yet `SetCell` throws `FormulaException`, because the out-of-bounds
reference XFE1 is rejected before the cycle check runs. -/
theorem C2_counterexample :
    A1.IsValid sampleExt = true ∧
    sampleExt.ParseFormulaAST "A1+XFE1" = some (.add (.cell A1) (.cell XFE1)) ∧
    A1 ∈ Formula.GetReferencedCells sampleExt (.add (.cell A1) (.cell XFE1)) ∧
    (Sheet.empty sampleExt).SetCell A1 "=A1+XFE1" =
      some (Sheet.empty sampleExt, some .FormulaException) :=
  ⟨by decide, by decide, by decide, by rfl⟩

/-- C2, amended. On a reachable sheet, for a valid position `p` and a formula text that
parses and refers to valid positions only: if one of the referenced cells is `p` itself or
reads `p` transitively through the formulas stored in the cells, then `SetCell(p, text)`
throws `CircularDependencyException`; afterwards the cell map (so the cell at `p`, its
presence, text and cache) and the reverse dependency map are unchanged, and the forward
dependency relation (a missing entry counting as the empty list) is the same. -/
theorem C2_cyclic_formula_rejected (E : Ext) (s : Sheet E) (hs : Reachable E s) (p : Position)
    (hp : p.IsValid E = true) (text : String) (rest : List Char) (formula : E.AST)
    (htext : text.data = FORMULA_SIGN :: rest)
    (hparse : E.ParseFormulaAST (String.mk rest) = some formula)
    (hvalid : ∀ d ∈ Formula.GetReferencedCells E formula, d.IsValid E = true)
    (hcycle : ∃ d ∈ Formula.GetReferencedCells E formula, Reach (reads s) d p) :
    ∃ s1, s.SetCell p text = some (s1, some .CircularDependencyException) ∧
      s1.cells_ = s.cells_ ∧
      s1.reverse_dependencies_ = s.reverse_dependencies_ ∧
      edges s1.dependencies_ = edges s.dependencies_ := by
  have ht : text.data ≠ [] := by rw [htext]; simp
  obtain ⟨s0, r, hres, hcase⟩ := SetCell_nonempty s p text hs.inv hp ht
  have hkey : ∃ deps1, Extends s.dependencies_ deps1 ∧
      s0 = { s with dependencies_ := deps1 } ∧ r = .error .CircularDependencyException := by
    cases hres with
    | empty h0 => exact absurd h0 ht
    | parseError rest1 h1 h2 =>
      rw [htext] at h1
      simp only [List.cons.injEq, true_and] at h1
      subst h1
      rw [hparse] at h2; cases h2
    | badReference rest1 formula1 h1 h2 h3 =>
      rw [htext] at h1
      simp only [List.cons.injEq, true_and] at h1
      subst h1
      rw [hparse] at h2
      simp only [Option.some.injEq] at h2
      subst h2
      obtain ⟨d, hd, hbad⟩ := h3
      rw [hvalid d hd] at hbad; cases hbad
    | cycle rest1 formula1 deps1 h1 h2 h3 hext h4 => exact ⟨deps1, hext, rfl, rfl⟩
    | formula rest1 formula1 deps1 h1 h2 h3 hext h4 =>
      rw [htext] at h1
      simp only [List.cons.injEq, true_and] at h1
      subst h1
      rw [hparse] at h2
      simp only [Option.some.injEq] at h2
      subst h2
      obtain ⟨d, hd, hr⟩ := hcycle
      exact absurd (reach_reads_edges hs.inv d p hr) (h4 d hd)
    | escaped rest1 h1 =>
      rw [htext] at h1
      simp only [List.cons.injEq] at h1
      exact absurd h1.1.symm escape_ne_formula
    | plain c rest1 h1 h2 h3 =>
      rw [htext] at h1
      simp only [List.cons.injEq] at h1
      exact absurd h1.1.symm h2
  obtain ⟨deps1, hext, rfl, rfl⟩ := hkey
  rcases hcase with ⟨e, he, hset⟩ | ⟨cell, s5, he, _, _⟩
  · simp only [Except.error.injEq] at he
    subst he
    exact ⟨_, hset, rfl, rfl, Extends.edges_eq hext⟩
  · cases he

/-- Instance of C2 (amended): on the sheet after `SetCell(A1, "=B1")`, the formula `=A1`
at B1 closes a cycle and is rejected. -/
theorem C2_cyclic_formula_rejected_witness :
    reads sheetA A1 = [B1] ∧
    ∃ s1, sheetA.SetCell B1 "=A1" = some (s1, some .CircularDependencyException) ∧
      s1.cells_ = sheetA.cells_ ∧
      s1.reverse_dependencies_ = sheetA.reverse_dependencies_ ∧
      edges s1.dependencies_ = edges sheetA.dependencies_ :=
  ⟨by decide,
   C2_cyclic_formula_rejected sampleExt sheetA reachable_sheetA B1 (by decide) "=A1"
    "A1".data (.cell A1) (by decide) (by decide) (by decide)
    ⟨A1, by decide, Relation.ReflTransGen.single (by decide)⟩⟩

/-- C3 fails on the code at the sequence `SetCell(A1, "=B1"); SetCell(A1, "text");
SetCell(B1, "=A1")`: after the second call A1 holds a text and reads nothing, and B1 holds
no cell, but `dependencies_[A1]` still lists B1, so the third call throws
`CircularDependencyException`. -/
theorem C3_stale_edge_rejects_edit :
    thrownBy (Sheet.empty sampleExt) A1 "=B1" = some none ∧
    thrownBy sheetA A1 "text" = some none ∧
    reads sheetStale A1 = [] ∧ reads sheetStale B1 = [] ∧
    ¬ Reach (reads sheetStale) A1 B1 ∧
    edges sheetStale.dependencies_ A1 = [B1] ∧
    thrownBy sheetStale B1 "=A1" = some (some .CircularDependencyException) := by
  refine ⟨by decide, by decide, by decide, by decide, ?_, by decide, by decide⟩
  intro h
  rcases Relation.ReflTransGen.cases_head h with h1 | ⟨c, hc, _⟩
  · exact absurd h1 (by decide)
  · have : reads sheetStale A1 = [] := by decide
    rw [this] at hc
    simp at hc

/-- C4, as the claim states it, fails: on the sheet after `SetCell(B1, "=C1")`, the edit
`SetCell(C1, "=A1+B1")` is rejected with `CircularDependencyException`, but the search
evaluated `dependencies_[A1]` on its way, so the forward map has gained the key A1. -/
theorem C4_counterexample :
    thrownBy (Sheet.empty sampleExt) B1 "=C1" = some none ∧
    thrownBy sheetB C1 "=A1+B1" = some (some .CircularDependencyException) ∧
    UMap.find sheetB.dependencies_ A1 = none ∧
    UMap.find (afterSet sheetB C1 "=A1+B1").dependencies_ A1 = some [] ∧
    (afterSet sheetB C1 "=A1+B1").dependencies_ ≠ sheetB.dependencies_ :=
  ⟨by decide, by decide, by decide, by decide, by decide⟩

/-- C4, amended. On a reachable sheet `SetCell` always returns, and if it throws (invalid
position, parser failure, invalid referenced position or circular dependency), then the
cell map with every cell's content and cache, the reverse dependency map and the row and
column bookkeeping are exactly as before the call; the forward dependency map keeps every
entry it had and can only have gained keys mapped to the empty list, so the forward
relation (a missing entry counting as the empty list) is as before. -/
theorem C4_rejected_edit_frame (E : Ext) (s : Sheet E) (hs : Reachable E s) (pos : Position)
    (text : String) :
    (∃ r, s.SetCell pos text = some r) ∧
    ∀ s1 e, s.SetCell pos text = some (s1, some e) →
      s1.cells_ = s.cells_ ∧ s1.rows_ = s.rows_ ∧ s1.cols_ = s.cols_ ∧
      s1.row_counts_ = s.row_counts_ ∧ s1.col_counts_ = s.col_counts_ ∧
      s1.reverse_dependencies_ = s.reverse_dependencies_ ∧
      (∀ k, UMap.find s1.dependencies_ k = UMap.find s.dependencies_ k ∨
        (UMap.find s.dependencies_ k = none ∧ UMap.find s1.dependencies_ k = some [])) ∧
      edges s1.dependencies_ = edges s.dependencies_ := by
  refine ⟨SetCell_total s pos text hs.inv, ?_⟩
  intro s1 e h
  have hsame : ∀ (s2 : Sheet E), s2 = s →
      s2.cells_ = s.cells_ ∧ s2.rows_ = s.rows_ ∧ s2.cols_ = s.cols_ ∧
      s2.row_counts_ = s.row_counts_ ∧ s2.col_counts_ = s.col_counts_ ∧
      s2.reverse_dependencies_ = s.reverse_dependencies_ ∧
      (∀ k, UMap.find s2.dependencies_ k = UMap.find s.dependencies_ k ∨
        (UMap.find s.dependencies_ k = none ∧ UMap.find s2.dependencies_ k = some [])) ∧
      edges s2.dependencies_ = edges s.dependencies_ := by
    intro s2 h2
    subst h2
    exact ⟨rfl, rfl, rfl, rfl, rfl, rfl, fun _ => Or.inl rfl, rfl⟩
  by_cases hpos : pos.IsValid E = true
  · by_cases ht : text.data = []
    · rw [SetCell_empty s pos text hpos ht] at h
      simp only [Option.some.injEq] at h
      have := ClearCell_valid_thrown s pos hpos
      rw [h] at this
      cases this
    · obtain ⟨s0, r, hres, h1 | h1⟩ := SetCell_nonempty s pos text hs.inv hpos ht
      · obtain ⟨e1, rfl, h1⟩ := h1
        rw [h1] at h
        simp only [Option.some.injEq, Prod.mk.injEq] at h
        obtain ⟨deps1, hd1, hext⟩ := hres.rejected
        rw [← h.1, hd1]
        exact ⟨rfl, rfl, rfl, rfl, rfl, rfl, hext, Extends.edges_eq hext⟩
      · obtain ⟨cell, s5, _, h1, _⟩ := h1
        rw [h1] at h
        simp at h
  · rw [SetCell_invalid s pos text hpos] at h
    simp only [Option.some.injEq, Prod.mk.injEq] at h
    exact hsame s1 h.1.symm

/-- Instance of C4 (amended): the rejected edit `SetCell(C1, "=A1+B1")` on the sheet after
`SetCell(B1, "=C1")` leaves the forward relation at B1 as it was. -/
theorem C4_rejected_edit_frame_witness :
    sheetB.SetCell C1 "=A1+B1" =
      some (afterSet sheetB C1 "=A1+B1", some .CircularDependencyException) ∧
    (afterSet sheetB C1 "=A1+B1").cells_ = sheetB.cells_ ∧
    edges (afterSet sheetB C1 "=A1+B1").dependencies_ = edges sheetB.dependencies_ :=
  have h : sheetB.SetCell C1 "=A1+B1" =
      some (afterSet sheetB C1 "=A1+B1", some .CircularDependencyException) := by rfl
  have h2 := (C4_rejected_edit_frame sampleExt sheetB reachable_sheetB C1 "=A1+B1").2 _ _ h
  ⟨h, h2.1, h2.2.2.2.2.2.2.2⟩

/-- C5. Forward/reverse inverse invariant: in every reachable sheet, for all positions `p`
and `d`, `reverse_dependencies_[d]` contains `p` if and only if `dependencies_[p]` contains
`d` (a missing map entry counting as the empty list). -/
theorem C5_forward_reverse_inverse (E : Ext) (s : Sheet E) (hs : Reachable E s)
    (p d : Position) :
    p ∈ edges s.reverse_dependencies_ d ↔ d ∈ edges s.dependencies_ p :=
  hs.inv.inverse p d

/-- Instance of C5 on the sheet after `SetCell(A1, "=B1")`. -/
theorem C5_forward_reverse_inverse_witness :
    B1 ∈ edges sheetA.dependencies_ A1 ∧
    (A1 ∈ edges sheetA.reverse_dependencies_ B1 ↔ B1 ∈ edges sheetA.dependencies_ A1) :=
  ⟨by decide, C5_forward_reverse_inverse sampleExt sheetA reachable_sheetA A1 B1⟩

/-- C6 fails on the code: with the formula `=B1` stored at A1, neither `ClearCell(A1)`, nor
`SetCell(A1, "")`, nor `SetCell(A1, "text")` touches the dependency maps; afterwards
`dependencies_[A1]` still lists B1 and `reverse_dependencies_[B1]` still lists A1. -/
theorem C6_edges_survive_clear :
    thrownBy (Sheet.empty sampleExt) A1 "=B1" = some none ∧
    (UMap.find sheetA.cells_ A1).map Cell.GetReferencedCells = some [B1] ∧
    edges sheetA.dependencies_ A1 = [B1] ∧
    edges (afterClear sheetA A1).dependencies_ A1 = [B1] ∧
    A1 ∈ edges (afterClear sheetA A1).reverse_dependencies_ B1 ∧
    edges (afterSet sheetA A1 "").dependencies_ A1 = [B1] ∧
    A1 ∈ edges (afterSet sheetA A1 "").reverse_dependencies_ B1 ∧
    thrownBy sheetA A1 "text" = some none ∧
    edges (afterSet sheetA A1 "text").dependencies_ A1 = [B1] ∧
    A1 ∈ edges (afterSet sheetA A1 "text").reverse_dependencies_ B1 ∧
    edges (Sheet.UpdateDependencies sheetA A1 []).dependencies_ A1 = [] :=
  ⟨by decide, by decide, by decide, by decide, by decide, by decide, by decide, by decide,
    by decide, by decide, by decide⟩

/-- C7 fails on the code at the sequence `SetCell(A1, "=B1"); SetCell(B1, "5"); GetValue(A1);
ClearCell(B1)`: `ClearCell` runs no invalidation, so the cell A1 keeps a cache marked valid
holding 5, while evaluating its formula afresh against the sheet, where B1 is now absent,
gives 0; the following `GetValue(A1)` returns the stale 5. -/
theorem C7_stale_cache_after_clear :
    thrownBy (Sheet.empty sampleExt) A1 "=B1" = some none ∧
    thrownBy sheetA B1 "5" = some none ∧
    (Sheet.GetValue 8 (afterSet sheetA B1 "5") A1).map Prod.snd = some (some (.number 5)) ∧
    cacheAt sheetCached A1 = some (true, some (.number 5)) ∧
    cacheAt (afterClear sheetCached B1) A1 = some (true, some (.number 5)) ∧
    Sheet.Recompute 8 (afterClear sheetCached B1) A1 = some (some (.number 0)) ∧
    (Sheet.GetValue 8 (afterClear sheetCached B1) A1).map Prod.snd =
      some (some (.number 5)) :=
  ⟨by decide, by decide, by decide, by decide, by decide, by decide, by decide⟩

/-- C8. Edit cascade: on a reachable sheet, after a successful `SetCell(pos, text)` with a
valid `pos` and a non-empty `text`, a cell is stored at `pos`, and every stored cell at a
position reachable from `pos` along the reverse-dependency edges of the updated graph
(`pos` itself included) has its cache marked invalid; this covers every stored cell that
reads `pos` directly or transitively. Every position not reachable along reverse edges holds
the same cell, cache included, as before the call. -/
theorem C8_edit_cascade (E : Ext) (s : Sheet E) (hs : Reachable E s) (pos : Position)
    (hpos : pos.IsValid E = true) (text : String) (ht : text ≠ "") (s1 : Sheet E)
    (h : s.SetCell pos text = some (s1, none)) :
    (∃ c, UMap.find s1.cells_ pos = some c) ∧
    (∀ q c, UMap.find s1.cells_ q = some c →
      Reach (edges s1.reverse_dependencies_) pos q → c.is_valid_ = false) ∧
    (∀ q c, UMap.find s1.cells_ q = some c → Reach (reads s1) q pos → c.is_valid_ = false) ∧
    (∀ q, ¬ Reach (edges s1.reverse_dependencies_) pos q →
      UMap.find s1.cells_ q = UMap.find s.cells_ q) := by
  have hinv1 : Inv s1 := SetCell_inv s pos text s1 none hs.inv h
  obtain ⟨s0, r, hres, h1 | h1⟩ :=
    SetCell_nonempty s pos text hs.inv hpos (data_ne_nil_of_ne_empty text ht)
  · obtain ⟨e, _, h1⟩ := h1
    rw [h1] at h
    simp at h
  · obtain ⟨cell, s5, rfl, h1, h2⟩ := h1
    rw [h1] at h
    simp only [Option.some.injEq, Prod.mk.injEq, and_true] at h
    subst h
    obtain ⟨hready, hcells⟩ := hres.ready hs.inv hpos
    obtain ⟨s6, h6, _, _, hrev, hat, hothers⟩ := installCell_inv s0 pos cell hpos hready
    rw [h2] at h6
    simp only [Option.some.injEq, Prod.mk.injEq, and_true] at h6
    subst h6
    have erev := Extends.edges_eq hrev
    have hmain : ∀ q c, UMap.find s5.cells_ q = some c →
        Reach (edges s5.reverse_dependencies_) pos q → c.is_valid_ = false := by
      intro q c hq hr
      by_cases hqp : q = pos
      · subst hqp
        rw [hat] at hq
        simp only [Option.some.injEq] at hq
        rw [← hq]; rfl
      · rw [erev] at hr
        rw [(hothers q hqp).1 hr] at hq
        cases hf : UMap.find s0.cells_ q with
        | none => rw [hf] at hq; simp at hq
        | some c0 =>
          rw [hf] at hq
          simp only [Option.map_some', Option.some.injEq] at hq
          rw [← hq]; rfl
    refine ⟨⟨_, hat⟩, hmain, ?_, ?_⟩
    · intro q c hq hr
      exact hmain q c hq (reach_reverse hinv1.inverse q pos (reach_reads_edges hinv1 q pos hr))
    · intro q hr
      have hqp : q ≠ pos := by
        intro e
        apply hr
        rw [e]
        exact Relation.ReflTransGen.refl
      rw [erev] at hr
      rw [(hothers q hqp).2 hr, hcells]

/-- Instance of C8: after `SetCell(A1, "=B1"); SetCell(B1, "5"); GetValue(A1)` the cache of A1
is valid; the edit `SetCell(B1, "7")` marks it invalid. -/
theorem C8_edit_cascade_witness :
    cacheAt sheetCached A1 = some (true, some (.number 5)) ∧
    sheetCached.SetCell B1 "7" = some (afterSet sheetCached B1 "7", none) ∧
    A1 ∈ edges (afterSet sheetCached B1 "7").reverse_dependencies_ B1 ∧
    ∀ c, UMap.find (afterSet sheetCached B1 "7").cells_ A1 = some c → c.is_valid_ = false :=
  have h : sheetCached.SetCell B1 "7" = some (afterSet sheetCached B1 "7", none) := by rfl
  have hA : A1 ∈ edges (afterSet sheetCached B1 "7").reverse_dependencies_ B1 := by decide
  ⟨by decide, h, hA, fun c hc =>
    (C8_edit_cascade sampleExt sheetCached reachable_sheetCached B1 (by decide) "7"
      (by decide) _ h).2.1 A1 c hc (Relation.ReflTransGen.single hA)⟩

/-- C9 fails on the code: after `SetCell(A1, "=B1"); SetCell(B1, "5"); GetValue(A1)` the cell
A1 reads B1 and has a valid cache; `ClearCell(B1)` and `SetCell(B1, "")` remove B1 but run
no invalidation, so the cache of A1 is still marked valid afterwards. -/
theorem C9_clear_runs_no_cascade :
    reads sheetCached A1 = [B1] ∧
    (UMap.find sheetCached.cells_ A1).map Cell.is_valid_ = some true ∧
    (UMap.find sheetCached.cells_ B1).isSome = true ∧
    (UMap.find (afterClear sheetCached B1).cells_ B1).isSome = false ∧
    (UMap.find (afterClear sheetCached B1).cells_ A1).map Cell.is_valid_ = some true ∧
    thrownBy sheetCached B1 "" = some none ∧
    (UMap.find (afterSet sheetCached B1 "").cells_ A1).map Cell.is_valid_ = some true :=
  ⟨by decide, by decide, by decide, by decide, by decide, by decide, by decide⟩

/-- C10. `GetPrintableSize` is the minimal bounding box: in every reachable sheet it returns
(0, 0) when the cell map is empty, and otherwise (maxRow + 1, maxCol + 1), where maxRow and
maxCol are the largest row and the largest column among the positions in the cell map; the
two sums stay within `MAX_ROWS` and `MAX_COLS`, so they do not overflow an `int`. -/
theorem C10_printable_size (E : Ext) (s : Sheet E) (hs : Reachable E s) :
    (s.cells_ = [] → s.GetPrintableSize = (0, 0)) ∧
    (s.cells_ ≠ [] → ∃ pr ∈ UMap.keys s.cells_, ∃ pc ∈ UMap.keys s.cells_,
      s.GetPrintableSize = (pr.row + 1, pc.col + 1) ∧
      (∀ k ∈ UMap.keys s.cells_, k.row ≤ pr.row ∧ k.col ≤ pc.col) ∧
      pr.row + 1 ≤ E.MAX_ROWS ∧ pc.col + 1 ≤ E.MAX_COLS) :=
  printable_size_of_inv s hs.inv

/-- Instance of C10: after `SetCell(A1, "=B1"); SetCell(B1, "5"); GetValue(A1)` the cells A1
and B1 are stored and the printable size is one row by two columns. -/
theorem C10_printable_size_witness :
    UMap.keys sheetCached.cells_ = [A1, B1] ∧ sheetCached.GetPrintableSize = (1, 2) ∧
    ((sheetCached.cells_ = [] → sheetCached.GetPrintableSize = (0, 0)) ∧
    (sheetCached.cells_ ≠ [] → ∃ pr ∈ UMap.keys sheetCached.cells_,
      ∃ pc ∈ UMap.keys sheetCached.cells_,
      sheetCached.GetPrintableSize = (pr.row + 1, pc.col + 1) ∧
      (∀ k ∈ UMap.keys sheetCached.cells_, k.row ≤ pr.row ∧ k.col ≤ pc.col) ∧
      pr.row + 1 ≤ sampleExt.MAX_ROWS ∧ pc.col + 1 ≤ sampleExt.MAX_COLS)) :=
  ⟨by decide, by decide, C10_printable_size sampleExt sheetCached reachable_sheetCached⟩

theorem GetCell_valid {E : Ext} (s : Sheet E) (pos : Position) (hpos : pos.IsValid E = true) :
    s.GetCell pos = .ok (UMap.find s.cells_ pos) := by
  unfold Sheet.GetCell InvalidPositionCheck
  simp [hpos]

theorem GetCell_invalid {E : Ext} (s : Sheet E) (pos : Position)
    (hpos : ¬ pos.IsValid E = true) : s.GetCell pos = .error .InvalidPositionException := by
  unfold Sheet.GetCell InvalidPositionCheck
  simp [hpos]

theorem Cell_Set_text {E : Ext} (s : Sheet E) (cell : Cell E) (pos : Position) (text : String)
    (c : Char) (rest : List Char) (ht : text.data = c :: rest) (hc : c ≠ FORMULA_SIGN) :
    Cell.Set s cell pos text = some (s, .ok { cell with impl_ :=
      (if c = ESCAPE_SIGN then Impl.TextImpl (String.mk rest) true
        else Impl.TextImpl text false) }) := by
  unfold Cell.Set
  rw [ht]
  simp only [hc, ↓reduceIte]
  by_cases he : c = ESCAPE_SIGN <;> simp [he]

theorem string_mk_data (t : String) (l : List Char) (h : t.data = l) : String.mk l = t := by
  cases t
  simp only at h
  rw [h]

/-- A text cell that `Cell::Set` built is installed by `SetCell` on a reachable sheet, and
its value is the stored text. -/
theorem SetCell_text_installed {E : Ext} (s : Sheet E) (hs : Inv s) (p : Position)
    (hp : p.IsValid E = true) (t : String) (hne : t.data ≠ []) (tx : String) (esc : Bool)
    (hset : Cell.Set s (Cell.new E) p t =
      some (s, .ok { Cell.new E with impl_ := .TextImpl tx esc })) :
    ∃ s1, s.SetCell p t = some (s1, none) ∧
      s1.GetCell p = .ok (some { Cell.new E with impl_ := .TextImpl tx esc }) ∧
      ∀ n, ∃ s2, Sheet.GetValue (n + 1) s1 p = some (s2, some (.text tx)) := by
  obtain ⟨r, hr, hres⟩ := Cell_Set_result s (Cell.new E) p t
  rw [hset] at hr
  simp only [Option.some.injEq] at hr
  subst hr
  obtain ⟨hready, _⟩ := hres.ready hs hp
  obtain ⟨s5, h5, _, _, _, hat, _⟩ := installCell_inv s p _ hp hready
  have hat2 : UMap.find s5.cells_ p = some { Cell.new E with impl_ := .TextImpl tx esc } := hat
  refine ⟨s5, by rw [SetCell_ok s p t hp hne _ _ hset, h5], by rw [GetCell_valid s5 p hp, hat2],
    ?_⟩
  intro n
  simp only [Sheet.GetValue, hat2, Cell.new]
  simp

/-- C11. Text round-trip: on a reachable sheet, for a valid position `p` and a non-empty text
`t` whose first character is not the formula marker, `SetCell(p, t)` succeeds; afterwards
`GetCell(p)` finds a cell whose `GetText` is `t`, and `GetValue` of that cell is the text `t`
itself when `t` does not start with the escape apostrophe, and `t` without its first
character when it does. -/
theorem C11_text_round_trip (E : Ext) (s : Sheet E) (hs : Reachable E s) (p : Position)
    (hp : p.IsValid E = true) (t : String) (c : Char) (rest : List Char)
    (ht : t.data = c :: rest) (hc : c ≠ FORMULA_SIGN) :
    ∃ s1 cell, s.SetCell p t = some (s1, none) ∧ s1.GetCell p = .ok (some cell) ∧
      cell.GetText = t ∧
      ∀ n, ∃ s2, Sheet.GetValue (n + 1) s1 p =
        some (s2, some (.text (if c = ESCAPE_SIGN then String.mk rest else t))) := by
  have hne : t.data ≠ [] := by rw [ht]; simp
  have hset := Cell_Set_text s (Cell.new E) p t c rest ht hc
  by_cases he : c = ESCAPE_SIGN
  · subst he
    simp only [↓reduceIte] at hset ⊢
    obtain ⟨s1, h1, h2, h3⟩ := SetCell_text_installed s hs.inv p hp t hne _ _ hset
    refine ⟨s1, _, h1, h2, ?_, h3⟩
    simp only [Cell.GetText, ↓reduceIte]
    exact string_mk_data t _ ht
  · simp only [he, ↓reduceIte] at hset ⊢
    obtain ⟨s1, h1, h2, h3⟩ := SetCell_text_installed s hs.inv p hp t hne _ _ hset
    refine ⟨s1, _, h1, h2, ?_, h3⟩
    simp [Cell.GetText]

/-- Instance of C11: the escaped text made of an apostrophe followed by `=x`, set at A1 of
the empty sheet, reads back as itself and has the value `=x`. -/
theorem C11_text_round_trip_witness :
    ∃ s1 cell, (Sheet.empty sampleExt).SetCell A1 (String.mk [ESCAPE_SIGN, '=', 'x']) =
        some (s1, none) ∧ s1.GetCell A1 = .ok (some cell) ∧
      cell.GetText = String.mk [ESCAPE_SIGN, '=', 'x'] ∧
      ∀ n, ∃ s2, Sheet.GetValue (n + 1) s1 A1 =
        some (s2, some (.text (if ESCAPE_SIGN = ESCAPE_SIGN then String.mk ['=', 'x']
          else String.mk [ESCAPE_SIGN, '=', 'x']))) :=
  C11_text_round_trip sampleExt (Sheet.empty sampleExt) Reachable.empty A1 (by decide)
    (String.mk [ESCAPE_SIGN, '=', 'x']) ESCAPE_SIGN ['=', 'x'] rfl (by decide)

/-- C12. `ClearCell` removes exactly one cell: for every sheet and valid position `p`,
`ClearCell(p)` returns without throwing, and so does `SetCell(p, "")`, which is the same
call; afterwards `GetCell(p)` finds no cell, `GetCell(q)` finds the same cell as before at
every other valid position `q`, and when no cell was stored at `p` the sheet is unchanged. -/
theorem C12_clear_removes_one_cell (E : Ext) (s : Sheet E) (p : Position)
    (hp : p.IsValid E = true) :
    (s.ClearCell p).2 = none ∧ s.SetCell p "" = some (s.ClearCell p) ∧
    (s.ClearCell p).1.GetCell p = .ok none ∧
    (∀ q, q.IsValid E = true → q ≠ p → (s.ClearCell p).1.GetCell q = s.GetCell q) ∧
    (UMap.find s.cells_ p = none → (s.ClearCell p).1 = s) := by
  have hcells : (s.ClearCell p).1.cells_ = UMap.erase s.cells_ p := by
    unfold Sheet.ClearCell InvalidPositionCheck
    simp only [hp, ↓reduceIte]
    cases hc : UMap.find s.cells_ p with
    | none =>
      simp only
      have : ∀ (m : UMap Position (Cell E)), UMap.find m p = none → UMap.erase m p = m := by
        intro m
        induction m with
        | nil => intro _; rfl
        | cons e m ih =>
          obtain ⟨a, b⟩ := e
          intro h
          by_cases ha : a = p
          · simp [UMap.find, ha] at h
          · simp only [UMap.find, ha, ↓reduceIte] at h
            simp [UMap.erase, ha, ih h]
      exact (this _ hc).symm
    | some c =>
      simp only
      split <;> split <;> rfl
  refine ⟨ClearCell_valid_thrown s p hp, SetCell_empty s p "" hp rfl, ?_, ?_, ?_⟩
  · rw [GetCell_valid _ p hp, hcells, UMap.find_erase]
    simp
  · intro q hq hqp
    rw [GetCell_valid _ q hq, GetCell_valid _ q hq, hcells, UMap.find_erase]
    have : ¬ p = q := fun e => hqp e.symm
    simp [this]
  · intro h
    rw [ClearCell_absent s p hp h]

/-- Instance of C12: clearing B1 on the sheet holding A1 (a formula with a valid cache) and
B1 removes B1 and leaves the cell A1 as it was. -/
theorem C12_clear_removes_one_cell_witness :
    (UMap.find sheetCached.cells_ B1).isSome = true ∧
    ((sheetCached.ClearCell B1).2 = none ∧
    sheetCached.SetCell B1 "" = some (sheetCached.ClearCell B1) ∧
    (sheetCached.ClearCell B1).1.GetCell B1 = .ok none ∧
    (∀ q, q.IsValid sampleExt = true → q ≠ B1 →
      (sheetCached.ClearCell B1).1.GetCell q = sheetCached.GetCell q) ∧
    (UMap.find sheetCached.cells_ B1 = none → (sheetCached.ClearCell B1).1 = sheetCached)) :=
  ⟨by decide, C12_clear_removes_one_cell sampleExt sheetCached B1 (by decide)⟩

/-- C13. For every sheet and every out-of-bounds position, `SetCell` (with any text),
`GetCell` and `ClearCell` each throw `InvalidPositionException` and leave the sheet
unchanged; for every in-bounds position `GetCell` and `ClearCell` return without throwing. -/
theorem C13_position_check (E : Ext) (s : Sheet E) (pos : Position) :
    (pos.IsValid E = false →
      (∀ text, s.SetCell pos text = some (s, some .InvalidPositionException)) ∧
      s.GetCell pos = .error .InvalidPositionException ∧
      s.ClearCell pos = (s, some .InvalidPositionException)) ∧
    (pos.IsValid E = true →
      s.GetCell pos = .ok (UMap.find s.cells_ pos) ∧ (s.ClearCell pos).2 = none) := by
  constructor
  · intro h
    have h1 : ¬ pos.IsValid E = true := by rw [h]; simp
    exact ⟨fun text => SetCell_invalid s pos text h1, GetCell_invalid s pos h1,
      ClearCell_invalid s pos h1⟩
  · intro h
    exact ⟨GetCell_valid s pos h, ClearCell_valid_thrown s pos h⟩

/-- Instance of C13 on the sheet after `SetCell(A1, "=B1")`: the out-of-bounds position XFE1
is refused by the three operations, the in-bounds position A1 is served. -/
theorem C13_position_check_witness :
    XFE1.IsValid sampleExt = false ∧ A1.IsValid sampleExt = true ∧
    ((∀ text, sheetA.SetCell XFE1 text = some (sheetA, some .InvalidPositionException)) ∧
      sheetA.GetCell XFE1 = .error .InvalidPositionException ∧
      sheetA.ClearCell XFE1 = (sheetA, some .InvalidPositionException)) ∧
    (sheetA.GetCell A1 = .ok (UMap.find sheetA.cells_ A1) ∧ (sheetA.ClearCell A1).2 = none) :=
  ⟨by decide, by decide, (C13_position_check sampleExt sheetA XFE1).1 (by decide),
    (C13_position_check sampleExt sheetA A1).2 (by decide)⟩

theorem Position.lt_iff (a b : Position) :
    Position.lt a b = true ↔ a.row < b.row ∨ (a.row = b.row ∧ a.col < b.col) := by
  simp [Position.lt]

theorem Position.lt_false_iff (a b : Position) :
    Position.lt a b = false ↔ ¬ (a.row < b.row ∨ (a.row = b.row ∧ a.col < b.col)) := by
  rw [← Position.lt_iff]
  simp

theorem Position.eq_iff (a b : Position) : a = b ↔ a.row = b.row ∧ a.col = b.col := by
  cases a; cases b; simp

theorem mem_sortInsert (p x : Position) (l : List Position) :
    x ∈ sortInsert p l ↔ x = p ∨ x ∈ l := by
  induction l with
  | nil => simp [sortInsert]
  | cons q qs ih =>
    simp only [sortInsert]
    split
    · simp only [List.mem_cons, ih]
      tauto
    · simp

theorem mem_sortCells (x : Position) (l : List Position) : x ∈ sortCells l ↔ x ∈ l := by
  induction l with
  | nil => simp [sortCells]
  | cons p ps ih => simp [sortCells, mem_sortInsert, ih]

theorem mem_uniqueCells (x : Position) (l : List Position) : x ∈ uniqueCells l ↔ x ∈ l := by
  induction l using uniqueCells.induct with
  | case1 => simp [uniqueCells]
  | case2 p => simp [uniqueCells]
  | case3 p ps ih =>
    simp only [uniqueCells, ↓reduceIte, ih, List.mem_cons]
    tauto
  | case4 p q ps h ih =>
    simp only [uniqueCells, h, ↓reduceIte, List.mem_cons, ih]

theorem sortInsert_sorted (p : Position) (l : List Position)
    (h : l.Pairwise (fun a b => Position.lt b a = false)) :
    (sortInsert p l).Pairwise (fun a b => Position.lt b a = false) := by
  induction l with
  | nil => simp [sortInsert]
  | cons q qs ih =>
    rw [List.pairwise_cons] at h
    simp only [sortInsert]
    split
    · rename_i hqp
      rw [List.pairwise_cons]
      refine ⟨?_, ih h.2⟩
      intro x hx
      rcases (mem_sortInsert p x qs).1 hx with rfl | hx
      · rw [Position.lt_iff] at hqp
        rw [Position.lt_false_iff]
        omega
      · exact h.1 x hx
    · rename_i hqp
      have hqp2 : Position.lt q p = false := by simpa using hqp
      rw [List.pairwise_cons]
      refine ⟨?_, List.pairwise_cons.2 h⟩
      intro x hx
      rcases List.mem_cons.1 hx with rfl | hx
      · exact hqp2
      · have := h.1 x hx
        rw [Position.lt_false_iff] at this hqp2 ⊢
        omega

theorem sortCells_sorted (l : List Position) :
    (sortCells l).Pairwise (fun a b => Position.lt b a = false) := by
  induction l with
  | nil => simp [sortCells]
  | cons p ps ih => exact sortInsert_sorted p _ ih

theorem uniqueCells_strict (l : List Position)
    (h : l.Pairwise (fun a b => Position.lt b a = false)) :
    (uniqueCells l).Pairwise (fun a b => Position.lt a b = true) := by
  induction l using uniqueCells.induct with
  | case1 => simp [uniqueCells]
  | case2 p => simp [uniqueCells]
  | case3 p ps ih =>
    simp only [uniqueCells, ↓reduceIte]
    exact ih (List.pairwise_cons.1 h).2
  | case4 p q ps hne ih =>
    simp only [uniqueCells, hne, ↓reduceIte]
    rw [List.pairwise_cons] at h ⊢
    refine ⟨?_, ih h.2⟩
    intro x hx
    rw [mem_uniqueCells] at hx
    have hpq := h.1 q (List.mem_cons_self _ _)
    have hqx : Position.lt x q = false := by
      rcases List.mem_cons.1 hx with rfl | hx
      · rw [Position.lt_false_iff]; omega
      · exact (List.pairwise_cons.1 h.2).1 x hx
    have hne2 : ¬ (p.row = q.row ∧ p.col = q.col) := fun e => hne ((Position.eq_iff p q).2 e)
    rw [Position.lt_false_iff] at hpq hqx
    rw [Position.lt_iff]
    omega

theorem strict_nodup (l : List Position)
    (h : l.Pairwise (fun a b => Position.lt a b = true)) : l.Nodup := by
  apply List.Pairwise.imp _ h
  intro a b hab e
  subst e
  rw [Position.lt_iff] at hab
  omega

theorem mem_GetReferencedCells (E : Ext) (ast : E.AST) (x : Position) :
    x ∈ Formula.GetReferencedCells E ast ↔ x ∈ E.GetCells ast := by
  unfold Formula.GetReferencedCells
  rw [mem_uniqueCells, mem_sortCells]

/-- C14, as the claim states it, fails: on the empty sheet the formula `=A1+XFE1` at B1
parses, its reference list holds the out-of-bounds position XFE1, and `SetCell` throws
`FormulaException`, not `InvalidPositionException`. -/
theorem C14_counterexample :
    B1.IsValid sampleExt = true ∧
    sampleExt.ParseFormulaAST "A1+XFE1" = some (.add (.cell A1) (.cell XFE1)) ∧
    sampleExt.GetCells (.add (.cell A1) (.cell XFE1)) = [A1, XFE1] ∧
    XFE1.IsValid sampleExt = false ∧
    (Sheet.empty sampleExt).SetCell B1 "=A1+XFE1" =
      some (Sheet.empty sampleExt, some .FormulaException) ∧
    Exception.FormulaException ≠ Exception.InvalidPositionException :=
  ⟨by decide, by decide, by decide, by decide, by rfl, by decide⟩

/-- C14, amended. For every sheet, every valid position `pos` and every formula text that
parses but whose list of referenced positions holds an out-of-bounds position,
`SetCell(pos, text)` throws `FormulaException` (the exception `Cell::Set` raises in its
validity loop) and leaves the sheet unchanged. -/
theorem C14_invalid_reference_rejected (E : Ext) (s : Sheet E) (pos : Position)
    (hpos : pos.IsValid E = true) (text : String) (rest : List Char) (formula : E.AST)
    (htext : text.data = FORMULA_SIGN :: rest)
    (hparse : E.ParseFormulaAST (String.mk rest) = some formula)
    (hbad : ∃ d ∈ E.GetCells formula, d.IsValid E = false) :
    s.SetCell pos text = some (s, some .FormulaException) := by
  have ht : text.data ≠ [] := by rw [htext]; simp
  apply SetCell_error s pos text hpos ht
  unfold Cell.Set
  rw [htext]
  simp only [↓reduceIte, ParseFormula, hparse]
  have : (Formula.GetReferencedCells E formula).any (fun dep => !dep.IsValid E) = true := by
    rw [List.any_eq_true]
    obtain ⟨d, hd, hd2⟩ := hbad
    exact ⟨d, (mem_GetReferencedCells E formula d).2 hd, by simp [hd2]⟩
  simp [this]

/-- Instance of C14 (amended): `SetCell(B1, "=A1+XFE1")` on the sheet after
`SetCell(A1, "=B1")`. -/
theorem C14_invalid_reference_rejected_witness :
    XFE1 ∈ sampleExt.GetCells (.add (.cell A1) (.cell XFE1)) ∧
    sheetA.SetCell B1 "=A1+XFE1" = some (sheetA, some .FormulaException) :=
  ⟨by decide,
   C14_invalid_reference_rejected sampleExt sheetA B1 (by decide) "=A1+XFE1" "A1+XFE1".data
    (.add (.cell A1) (.cell XFE1)) (by decide) (by decide) ⟨XFE1, by decide, by decide⟩⟩

/-- C15. `GetReferencedCells`: for a formula the returned list is strictly ascending in
(row, then column) order, hence free of duplicates, and holds exactly the positions of the
tree's reference list, whatever the order and the repetitions of that list; a cell with a
formula returns that list, an empty cell or a text cell returns the empty list. -/
theorem C15_referenced_cells_sorted_unique (E : Ext) (ast : E.AST) :
    (Formula.GetReferencedCells E ast).Pairwise
      (fun a b => a.row < b.row ∨ (a.row = b.row ∧ a.col < b.col)) ∧
    (Formula.GetReferencedCells E ast).Nodup ∧
    (∀ x, x ∈ Formula.GetReferencedCells E ast ↔ x ∈ E.GetCells ast) ∧
    (∀ (expr : String) (cached : Option (Value E.Num E.FormulaError)) (valid : Bool),
      Cell.GetReferencedCells
        ({ impl_ := .FormulaImpl expr ast, cached_value_ := cached, is_valid_ := valid } : Cell E)
        = Formula.GetReferencedCells E ast) ∧
    (∀ (text : String) (escaped : Bool) (cached : Option (Value E.Num E.FormulaError))
      (valid : Bool),
      Cell.GetReferencedCells
        ({ impl_ := .TextImpl text escaped, cached_value_ := cached, is_valid_ := valid } : Cell E)
        = []) ∧
    (∀ (cached : Option (Value E.Num E.FormulaError)) (valid : Bool),
      Cell.GetReferencedCells
        ({ impl_ := .EmptyImpl, cached_value_ := cached, is_valid_ := valid } : Cell E) = []) := by
  have hstrict : (Formula.GetReferencedCells E ast).Pairwise
      (fun a b => Position.lt a b = true) :=
    uniqueCells_strict _ (sortCells_sorted _)
  refine ⟨?_, strict_nodup _ hstrict, mem_GetReferencedCells E ast, fun _ _ _ => rfl,
    fun _ _ _ _ => rfl, fun _ _ => rfl⟩
  exact List.Pairwise.imp (fun {a b} h => (Position.lt_iff a b).1 h) hstrict

/-- Instance of C15 on a sample tree whose reference list is B1, A1, B1: the returned list
is A1, B1. -/
theorem C15_referenced_cells_sorted_unique_witness :
    sampleExt.GetCells (.add (.add (.cell B1) (.cell A1)) (.cell B1)) = [B1, A1, B1] ∧
    Formula.GetReferencedCells sampleExt (.add (.add (.cell B1) (.cell A1)) (.cell B1))
      = [A1, B1] ∧
    (Formula.GetReferencedCells sampleExt
      (.add (.add (.cell B1) (.cell A1)) (.cell B1))).Nodup :=
  ⟨by decide, by decide,
    (C15_referenced_cells_sorted_unique sampleExt
      (.add (.add (.cell B1) (.cell A1)) (.cell B1))).2.1⟩

/-- C16 fails on the code: `Cell::Set` tests only the first character, so the one-character
text `=` takes the formula branch and the empty expression goes to the parser. Whatever the
parser does with it, the text is never stored as plain text; with a parser that rejects the
empty expression `SetCell(A1, "=")` throws `FormulaException` and stores no cell. -/
theorem C16_lone_marker_is_parsed :
    (∀ (E : Ext) (s s1 : Sheet E) (cell c1 : Cell E) (pos : Position),
      Cell.Set s cell pos "=" = some (s1, .ok c1) →
      ∃ formula, E.ParseFormulaAST "" = some formula ∧ c1.impl_ = .FormulaImpl "" formula) ∧
    (∀ (E : Ext) (s : Sheet E) (cell : Cell E) (pos : Position),
      E.ParseFormulaAST "" = none →
      Cell.Set s cell pos "=" = some (s, .error .FormulaException)) ∧
    sampleExt.ParseFormulaAST "" = none ∧
    thrownBy (Sheet.empty sampleExt) A1 "=" = some (some .FormulaException) ∧
    (UMap.find (afterSet (Sheet.empty sampleExt) A1 "=").cells_ A1).isSome = false := by
  refine ⟨?_, ?_, by decide, by decide, by decide⟩
  · intro E s s1 cell c1 pos h
    unfold Cell.Set at h
    have hd : ("=" : String).data = FORMULA_SIGN :: [] := rfl
    rw [hd] at h
    simp only [↓reduceIte, ParseFormula] at h
    have hm : String.mk [] = "" := rfl
    rw [hm] at h
    cases hp : E.ParseFormulaAST "" with
    | none => rw [hp] at h; simp at h
    | some formula =>
      rw [hp] at h
      simp only at h
      refine ⟨formula, rfl, ?_⟩
      split at h
      · simp at h
      · obtain ⟨deps1, thrown, h1, _, h3⟩ :=
          CheckCircularDependency_spec s pos (Formula.GetReferencedCells E formula)
        rw [h1] at h
        rcases h3 with ⟨h3, _⟩ | ⟨h3, _⟩
        · subst h3; simp at h
        · subst h3
          simp only [Option.some.injEq, Prod.mk.injEq, Except.ok.injEq] at h
          rw [← h.2]
  · intro E s cell pos hp
    unfold Cell.Set
    have hd : ("=" : String).data = FORMULA_SIGN :: [] := rfl
    rw [hd]
    simp only [↓reduceIte, ParseFormula]
    have hm : String.mk [] = "" := rfl
    rw [hm, hp]

theorem hasCycle_fresh_spec (pos : Position) (deps0 deps : UMap Position (List Position))
    (hext : Extends deps0 deps) (d : Position) :
    ∃ b deps1 V1, hasCycle pos (deps0.length + 1) (deps, []) d = some (b, (deps1, V1)) ∧
      Extends deps0 deps1 ∧ (b = true ↔ Reach (edges deps0) d pos) := by
  have hsim := hasCycle_sim pos (deps0.length + 1) deps [] d
  rw [Extends.edges_eq hext] at hsim
  have htot : dfs (edges deps0) (fun x => decide (x = pos)) (deps0.length + 1) [] d ≠ none := by
    apply dfs_total _ _ (UMap.keys deps0) (fun v hv => edges_ne_nil_mem_keys _ _ hv)
    have := unvisited_nil_le (UMap.keys deps0)
    simp only [UMap.keys, List.length_map] at this
    simp only [UMap.keys]
    omega
  cases hh : hasCycle pos (deps0.length + 1) (deps, []) d with
  | none =>
    rw [hh] at hsim
    simp only [Option.map_none'] at hsim
    exact absurd hsim.symm htot
  | some r =>
    obtain ⟨b, deps1, V1⟩ := r
    have hext1 := Extends.trans_ext hext (hasCycle_extends pos _ _ _ _ _ hh)
    rw [hh] at hsim
    simp only [Option.map_some'] at hsim
    refine ⟨b, deps1, V1, rfl, hext1, ?_⟩
    cases b with
    | true =>
      obtain ⟨t, ht, hr⟩ := dfs_found _ _ _ _ _ _ hsim.symm
      simp only [decide_eq_true_eq] at ht
      subst ht
      simp [hr]
    | false =>
      obtain ⟨_, a2, a3⟩ := dfs_closes _ _ _ _ _ _ hsim.symm
      have : ¬ Reach (edges deps0) d pos := by
        apply not_reach_of_closed _ V1 pos (fun v hv => (a3 v hv (by simp)).2.2) _ d
          (a2 d (List.mem_singleton_self _))
        intro hpos
        have := (a3 pos hpos (by simp)).1
        simp at this
      simp [this]

theorem checkEachFresh_spec (pos : Position) (deps0 : UMap Position (List Position)) :
    ∀ (ds : List Position) (deps : UMap Position (List Position)), Extends deps0 deps →
      ∃ b deps1, checkEachFresh pos (deps0.length + 1) deps ds = some (b, deps1) ∧
        (b = true ↔ ∃ d ∈ ds, Reach (edges deps0) d pos) := by
  intro ds
  induction ds with
  | nil => intro deps _; exact ⟨false, deps, rfl, by simp⟩
  | cons d ds ih =>
    intro deps hext
    obtain ⟨b, deps1, V1, h1, hext1, hb⟩ := hasCycle_fresh_spec pos deps0 deps hext d
    simp only [checkEachFresh, h1]
    cases b with
    | true =>
      refine ⟨true, deps1, rfl, ?_⟩
      simp only [true_iff]
      exact ⟨d, List.mem_cons_self _ _, hb.1 rfl⟩
    | false =>
      obtain ⟨b2, deps2, h2, hb2⟩ := ih deps1 hext1
      refine ⟨b2, deps2, h2, ?_⟩
      rw [hb2]
      have hnot : ¬ Reach (edges deps0) d pos := fun h => by simpa using hb.2 h
      constructor
      · rintro ⟨x, hx, hr⟩
        exact ⟨x, List.mem_cons_of_mem _ hx, hr⟩
      · rintro ⟨x, hx, hr⟩
        rcases List.mem_cons.1 hx with rfl | hx
        · exact absurd hr hnot
        · exact ⟨x, hx, hr⟩

theorem reach_iff_eq_or_path (g : Position → List Position) (a b : Position) :
    Reach g a b ↔ a = b ∨ Path g a b := by
  unfold Reach Path
  rw [Relation.reflTransGen_iff_eq_or_transGen]
  constructor
  · rintro (h | h)
    · exact Or.inl h.symm
    · exact Or.inr h
  · rintro (h | h)
    · exact Or.inl h.symm
    · exact Or.inr h

/-- C17. Graph-level cycle check: for every sheet (whatever its forward map, cyclic or not),
position `pos` and list `deps`, `CheckCircularDependency(pos, deps)` returns, throwing
either nothing or `CircularDependencyException`; it throws if and only if some `d` in
`deps` equals `pos` or reaches `pos` along forward edges; a traversal with a fresh visited
set for each start node gives the same verdict; and, thrown or not, only `dependencies_`
can differ afterwards and the forward relation (a missing entry counting as the empty list)
is the same. -/
theorem C17_cycle_check_iff_reachable (E : Ext) (s : Sheet E) (pos : Position)
    (deps : List Position) :
    ∃ deps1 thrown, s.CheckCircularDependency pos deps =
        some ({ s with dependencies_ := deps1 }, thrown) ∧
      (thrown = none ∨ thrown = some .CircularDependencyException) ∧
      (thrown = some .CircularDependencyException ↔
        ∃ d ∈ deps, d = pos ∨ Path (edges s.dependencies_) d pos) ∧
      edges deps1 = edges s.dependencies_ ∧
      (checkEachFresh pos (s.dependencies_.length + 1) s.dependencies_ deps).map Prod.fst =
        some thrown.isSome := by
  obtain ⟨deps1, thrown, h1, hext, h3⟩ := CheckCircularDependency_spec s pos deps
  obtain ⟨b, deps2, hf, hb⟩ := checkEachFresh_spec pos s.dependencies_ deps s.dependencies_
    (Extends.refl_ext _)
  refine ⟨deps1, thrown, h1, ?_, ?_, Extends.edges_eq hext, ?_⟩
  · rcases h3 with ⟨h, _⟩ | ⟨h, _⟩
    · exact Or.inr h
    · exact Or.inl h
  · simp only [← reach_iff_eq_or_path]
    rcases h3 with ⟨h, hr⟩ | ⟨h, hr⟩
    · subst h
      exact ⟨fun _ => hr, fun _ => rfl⟩
    · subst h
      constructor
      · intro h; cases h
      · rintro ⟨d, hd, hr2⟩
        exact absurd hr2 (hr d hd)
  · rw [hf]
    simp only [Option.map_some', Option.some.injEq]
    rcases h3 with ⟨h, hr⟩ | ⟨h, hr⟩
    · subst h
      simpa using hb.2 hr
    · subst h
      cases b with
      | false => rfl
      | true =>
        obtain ⟨d, hd, hr2⟩ := hb.1 rfl
        exact absurd hr2 (hr d hd)

/-- Instance of C17 on the cyclic sample maps A1 -> B1 -> A1: asked about C1 from A1 and B1
the check walks the cycle once and does not throw; asked about B1 from A1 it throws. -/
theorem C17_cycle_check_iff_reachable_witness :
    (sheetCyclic.CheckCircularDependency C1 [A1, B1]).map Prod.snd = some none ∧
    (sheetCyclic.CheckCircularDependency B1 [A1]).map Prod.snd =
      some (some .CircularDependencyException) ∧
    (sheetCyclic.CheckCircularDependency A1 [A1]).map Prod.snd =
      some (some .CircularDependencyException) ∧
    ∃ deps1 thrown, sheetCyclic.CheckCircularDependency B1 [A1] =
        some ({ sheetCyclic with dependencies_ := deps1 }, thrown) ∧
      (thrown = none ∨ thrown = some .CircularDependencyException) ∧
      (thrown = some .CircularDependencyException ↔
        ∃ d ∈ [A1], d = B1 ∨ Path (edges sheetCyclic.dependencies_) d B1) ∧
      edges deps1 = edges sheetCyclic.dependencies_ ∧
      (checkEachFresh B1 (sheetCyclic.dependencies_.length + 1) sheetCyclic.dependencies_
        [A1]).map Prod.fst = some thrown.isSome :=
  ⟨by decide, by decide, by decide, C17_cycle_check_iff_reachable sampleExt sheetCyclic B1 [A1]⟩

/-- C18. Occupancy bookkeeping invariant: in every reachable sheet the keys of the cell map
are distinct; for every row `r`, `row_counts_[r]` (0 if absent) is the number of stored
positions in row `r`, and `r` is in `rows_` exactly when that number is at least 1; the same
holds for columns. Hence no stored count is negative, and `rows_` is empty exactly when
`cols_` is. -/
theorem C18_occupancy_bookkeeping (E : Ext) (s : Sheet E) (hs : Reachable E s) :
    (UMap.keys s.cells_).Nodup ∧
    (∀ r : Int,
      UMap.get s.row_counts_ r 0 =
        (((UMap.keys s.cells_).countP (fun k => decide (k.row = r)) : Nat) : Int) ∧
      (r ∈ s.rows_ ↔ 1 ≤ (UMap.keys s.cells_).countP (fun k => decide (k.row = r)))) ∧
    (∀ c : Int,
      UMap.get s.col_counts_ c 0 =
        (((UMap.keys s.cells_).countP (fun k => decide (k.col = c)) : Nat) : Int) ∧
      (c ∈ s.cols_ ↔ 1 ≤ (UMap.keys s.cells_).countP (fun k => decide (k.col = c)))) ∧
    (∀ r n, UMap.find s.row_counts_ r = some n → 0 ≤ n) ∧
    (∀ c n, UMap.find s.col_counts_ c = some n → 0 ≤ n) ∧
    (s.rows_ = [] ↔ s.cols_ = []) := by
  have hi := hs.inv
  have hrows : s.rows_ = [] ↔ UMap.keys s.cells_ = [] := by
    constructor
    · intro h
      apply List.eq_nil_iff_forall_not_mem.2
      intro k hk
      have := (hi.rows.mem_iff k.row).2 ⟨k, hk, rfl⟩
      rw [h] at this
      simp at this
    · intro h
      apply List.eq_nil_iff_forall_not_mem.2
      intro r hr
      obtain ⟨k, hk, _⟩ := (hi.rows.mem_iff r).1 hr
      rw [h] at hk
      simp at hk
  have hcols : s.cols_ = [] ↔ UMap.keys s.cells_ = [] := by
    constructor
    · intro h
      apply List.eq_nil_iff_forall_not_mem.2
      intro k hk
      have := (hi.cols.mem_iff k.col).2 ⟨k, hk, rfl⟩
      rw [h] at this
      simp at this
    · intro h
      apply List.eq_nil_iff_forall_not_mem.2
      intro r hr
      obtain ⟨k, hk, _⟩ := (hi.cols.mem_iff r).1 hr
      rw [h] at hk
      simp at hk
  refine ⟨hi.nodup, fun r => hi.rows r, fun c => hi.cols c, ?_, ?_, by rw [hrows, hcols]⟩
  · intro r n hn
    have := (hi.rows r).1
    simp only [UMap.get, hn, Option.getD_some] at this
    rw [this]
    exact Int.natCast_nonneg _
  · intro c n hn
    have := (hi.cols c).1
    simp only [UMap.get, hn, Option.getD_some] at this
    rw [this]
    exact Int.natCast_nonneg _

/-- Instance of C18 on the sheet holding A1 and B1: one stored position in row 0, one in
each of the columns 0 and 1. -/
theorem C18_occupancy_bookkeeping_witness :
    UMap.keys sheetCached.cells_ = [A1, B1] ∧ UMap.get sheetCached.row_counts_ 0 0 = 2 ∧
    sheetCached.rows_ = [0] ∧
    (UMap.get sheetCached.row_counts_ 0 0 =
        (((UMap.keys sheetCached.cells_).countP (fun k => decide (k.row = 0)) : Nat) : Int) ∧
      ((0 : Int) ∈ sheetCached.rows_ ↔
        1 ≤ (UMap.keys sheetCached.cells_).countP (fun k => decide (k.row = 0)))) :=
  ⟨by decide, by decide, by decide,
    (C18_occupancy_bookkeeping sampleExt sheetCached reachable_sheetCached).2.1 0⟩

theorem forEach_fuel {σ : Type} (f g : σ → Position → Option (Bool × σ))
    (hfg : ∀ st d r, f st d = some r → g st d = some r) :
    ∀ (ds : List Position) (st : σ) (r : Bool × σ),
      forEach f st ds = some r → forEach g st ds = some r := by
  intro ds
  induction ds with
  | nil => intro st r h; simpa [forEach] using h
  | cons d ds ih =>
    intro st r h
    simp only [forEach] at h ⊢
    cases hd : f st d with
    | none => simp [hd] at h
    | some r1 =>
      obtain ⟨b1, st1⟩ := r1
      rw [hfg _ _ _ hd]
      cases b1 with
      | true => simpa [hd] using h
      | false =>
        simp only [hd] at h
        exact ih _ _ h

theorem hasCycle_fuel_succ (pos : Position) :
    ∀ (n : Nat) (st : UMap Position (List Position) × List Position) (c : Position)
      (r : Bool × (UMap Position (List Position) × List Position)),
      hasCycle pos n st c = some r → hasCycle pos (n + 1) st c = some r := by
  intro n
  induction n with
  | zero => intro st c r h; simp [hasCycle] at h
  | succ n ih =>
    intro st c r h
    obtain ⟨deps, V⟩ := st
    rw [hasCycle] at h ⊢
    split
    · rename_i h1; simpa [h1] using h
    · rename_i h1
      split
      · rename_i h2; simpa [h1, h2] using h
      · rename_i h2
        simp only [h1, h2, ↓reduceIte] at h
        exact forEach_fuel _ _ ih _ _ _ h

theorem hasCycle_fuel_add (pos : Position) (n k : Nat)
    (st : UMap Position (List Position) × List Position) (c : Position)
    (r : Bool × (UMap Position (List Position) × List Position))
    (h : hasCycle pos n st c = some r) : hasCycle pos (n + k) st c = some r := by
  induction k with
  | zero => exact h
  | succ k ih => exact hasCycle_fuel_succ pos (n + k) st c r ih

theorem invalidate_fuel_succ {E : Ext} :
    ∀ (n : Nat) (st : Sheet E × List Position) (c : Position)
      (r : Bool × (Sheet E × List Position)),
      invalidate n st c = some r → invalidate (n + 1) st c = some r := by
  intro n
  induction n with
  | zero => intro st c r h; simp [invalidate] at h
  | succ n ih =>
    intro st c r h
    obtain ⟨s, V⟩ := st
    rw [invalidate] at h ⊢
    split
    · rename_i h1; simpa [h1] using h
    · rename_i h1
      simp only [h1, ↓reduceIte] at h
      cases hg : s.GetCell c with
      | error e => simpa [hg] using h
      | ok found =>
        simp only [hg] at h ⊢
        exact forEach_fuel _ _ ih _ _ _ h

theorem invalidate_fuel_add {E : Ext} (n k : Nat) (st : Sheet E × List Position)
    (c : Position) (r : Bool × (Sheet E × List Position))
    (h : invalidate n st c = some r) : invalidate (n + k) st c = some r := by
  induction k with
  | zero => exact h
  | succ k ih => exact invalidate_fuel_succ (n + k) st c r ih

theorem hasCycle_nodup (pos : Position) :
    ∀ (n : Nat) (st : UMap Position (List Position) × List Position) (c : Position) (b : Bool)
      (st1 : UMap Position (List Position) × List Position),
      hasCycle pos n st c = some (b, st1) → st.2.Nodup → st1.2.Nodup := by
  intro n
  induction n with
  | zero => intro st c b st1 h; simp [hasCycle] at h
  | succ n ih =>
    intro st c b st1 h hnd
    obtain ⟨deps, V⟩ := st
    simp only [hasCycle] at h
    split at h
    · simp only [Option.some.injEq, Prod.mk.injEq] at h
      rw [← h.2]; exact hnd
    · split at h
      · simp only [Option.some.injEq, Prod.mk.injEq] at h
        rw [← h.2]; exact hnd
      · rename_i hc
        exact forEach_rel
          (fun (a b : UMap Position (List Position) × List Position) => a.2.Nodup → b.2.Nodup)
          (fun _ h => h) (fun _ _ _ h1 h2 h => h2 (h1 h)) (hasCycle pos n) ih _ _ _ _ h
          (List.nodup_cons.2 ⟨hc, hnd⟩)

theorem invalidate_nodup {E : Ext} :
    ∀ (n : Nat) (st : Sheet E × List Position) (c : Position) (b : Bool)
      (st1 : Sheet E × List Position),
      invalidate n st c = some (b, st1) → st.2.Nodup → st1.2.Nodup := by
  intro n
  induction n with
  | zero => intro st c b st1 h; simp [invalidate] at h
  | succ n ih =>
    intro st c b st1 h hnd
    obtain ⟨s, V⟩ := st
    simp only [invalidate] at h
    split at h
    · simp only [Option.some.injEq, Prod.mk.injEq] at h
      rw [← h.2]; exact hnd
    · rename_i hc
      cases hg : s.GetCell c with
      | error e =>
        simp only [hg, Option.some.injEq, Prod.mk.injEq] at h
        rw [← h.2]
        exact List.nodup_cons.2 ⟨hc, hnd⟩
      | ok found =>
        simp only [hg] at h
        exact forEach_rel (fun (a b : Sheet E × List Position) => a.2.Nodup → b.2.Nodup)
          (fun _ h => h) (fun _ _ _ h1 h2 h => h2 (h1 h)) (invalidate n) ih _ _ _ _ h
          (List.nodup_cons.2 ⟨hc, hnd⟩)

theorem forEach_total_inv {σ : Type} (Good : σ → Prop)
    (f : σ → Position → Option (Bool × σ))
    (hstep : ∀ st d b st1, Good st → f st d = some (b, st1) → Good st1)
    (hf : ∀ st d, Good st → f st d ≠ none) :
    ∀ (ds : List Position) (st : σ), Good st → forEach f st ds ≠ none := by
  intro ds
  induction ds with
  | nil => intro st _; simp [forEach]
  | cons d ds ih =>
    intro st hst
    simp only [forEach]
    cases hd : f st d with
    | none => exact absurd hd (hf st d hst)
    | some r =>
      obtain ⟨b1, st1⟩ := r
      cases b1 with
      | true => simp
      | false => exact ih st1 (hstep _ _ _ _ hst hd)

theorem invalidate_total {E : Ext} (nodes : List Position) :
    ∀ (n : Nat) (s : Sheet E) (V : List Position) (c : Position),
      (∀ v, edges s.reverse_dependencies_ v ≠ [] → v ∈ nodes) →
      unvisited nodes V < n → invalidate n (s, V) c ≠ none := by
  intro n
  induction n with
  | zero => intro s V c _ h; omega
  | succ n ih =>
    intro s V c hnodes hlt
    simp only [invalidate]
    split
    · simp
    · rename_i hc
      cases hg : s.GetCell c with
      | error e => simp
      | ok found =>
        simp only
        have e : UMap.get (UMap.touch s.reverse_dependencies_ c []) c [] =
            edges s.reverse_dependencies_ c := UMap.get_touch _ c c []
        rw [e]
        by_cases hempty : edges s.reverse_dependencies_ c = []
        · rw [hempty]; simp [forEach]
        · have hlt2 := unvisited_lt nodes V c (hnodes c hempty) hc
          apply forEach_total_inv
            (fun (st : Sheet E × List Position) =>
              (∀ v, edges st.1.reverse_dependencies_ v ≠ [] → v ∈ nodes) ∧
                unvisited nodes st.2 < n)
            (invalidate n)
          · intro st d b st1 hst hd
            have hfr := invalidate_framed n st d b st1 hd
            refine ⟨?_, lt_of_le_of_lt (unvisited_mono nodes _ _ hfr.visited) hst.2⟩
            rw [Extends.edges_eq hfr.rev]
            exact hst.1
          · intro st d hst
            obtain ⟨s3, V3⟩ := st
            exact ih s3 V3 d hst.1 hst.2
          · refine ⟨?_, ?_⟩
            · simp only
              rw [edges_touch]
              exact hnodes
            · show unvisited nodes (c :: V) < n
              omega

/-- C19. Traversal termination: for every sheet, whatever its forward and reverse maps hold
(cycles included), the search of `CheckCircularDependency` and the cascade of
`InvalidateCacheForDependents` return with the fuel the model gives them, and more fuel
does not change what they return. The list `visited` grows by `current` exactly when the
neighbours of `current` are about to be iterated, and it ends without repetition: each
position is expanded at most once. -/
theorem C19_traversals_terminate (E : Ext) (s : Sheet E) (pos : Position)
    (deps : List Position) :
    (∃ b deps1 V1,
      forEach (hasCycle pos (s.dependencies_.length + 1)) (s.dependencies_, []) deps =
        some (b, (deps1, V1)) ∧ V1.Nodup ∧
      ∀ k, forEach (hasCycle pos (s.dependencies_.length + 1 + k)) (s.dependencies_, []) deps =
        some (b, (deps1, V1))) ∧
    (∃ b s1 V1,
      invalidate (s.reverse_dependencies_.length + 1) (s, []) pos = some (b, (s1, V1)) ∧
      V1.Nodup ∧
      ∀ k, invalidate (s.reverse_dependencies_.length + 1 + k) (s, []) pos =
        some (b, (s1, V1))) ∧
    (∃ r, s.CheckCircularDependency pos deps = some r) ∧
    (∃ r, s.InvalidateCacheForDependents pos = some r) := by
  have hcheck : ∃ r, forEach (hasCycle pos (s.dependencies_.length + 1))
      (s.dependencies_, []) deps = some r := by
    obtain ⟨deps1, thrown, h1, _⟩ := CheckCircularDependency_spec s pos deps
    unfold Sheet.CheckCircularDependency at h1
    cases hfe : forEach (hasCycle pos (s.dependencies_.length + 1)) (s.dependencies_, []) deps with
    | none => rw [hfe] at h1; simp at h1
    | some r => exact ⟨r, rfl⟩
  have hinval : ∃ r, invalidate (s.reverse_dependencies_.length + 1) (s, []) pos = some r := by
    have : invalidate (s.reverse_dependencies_.length + 1) (s, []) pos ≠ none := by
      apply invalidate_total (UMap.keys s.reverse_dependencies_) _ s [] pos
        (fun v hv => edges_ne_nil_mem_keys _ _ hv)
      have := unvisited_nil_le (UMap.keys s.reverse_dependencies_)
      simp only [UMap.keys, List.length_map] at this
      simp only [UMap.keys]
      omega
    cases h : invalidate (s.reverse_dependencies_.length + 1) (s, []) pos with
    | none => exact absurd h this
    | some r => exact ⟨r, rfl⟩
  obtain ⟨⟨b, deps1, V1⟩, hc⟩ := hcheck
  obtain ⟨⟨b2, s2, V2⟩, hi⟩ := hinval
  refine ⟨⟨b, deps1, V1, hc, ?_, ?_⟩, ⟨b2, s2, V2, hi, ?_, ?_⟩, ?_, ?_⟩
  · exact forEach_rel
      (fun (a b : UMap Position (List Position) × List Position) => a.2.Nodup → b.2.Nodup)
      (fun _ h => h) (fun _ _ _ h1 h2 h => h2 (h1 h)) (hasCycle pos _)
      (hasCycle_nodup pos _) _ _ _ _ hc List.nodup_nil
  · intro k
    exact forEach_fuel _ _ (fun st d r h => hasCycle_fuel_add pos _ k st d r h) _ _ _ hc
  · exact invalidate_nodup _ _ _ _ _ hi List.nodup_nil
  · intro k
    exact invalidate_fuel_add _ k _ _ _ hi
  · unfold Sheet.CheckCircularDependency
    rw [hc]
    cases b <;> exact ⟨_, rfl⟩
  · unfold Sheet.InvalidateCacheForDependents
    rw [hi]
    cases b2 <;> exact ⟨_, rfl⟩

/-- Instance of C19 on the cyclic sample maps A1 -> B1 -> A1: both traversals return, each
having visited A1 and B1 once. -/
theorem C19_traversals_terminate_witness :
    (forEach (hasCycle C1 3) (sheetCyclic.dependencies_, []) [A1]).map
      (fun r => (r.1, r.2.2)) = some (false, [B1, A1]) ∧
    (invalidate 3 (sheetCyclic, []) A1).map (fun r => (r.1, r.2.2)) = some (false, [B1, A1]) ∧
    sheetCyclic.dependencies_.length + 1 = 3 ∧
    sheetCyclic.reverse_dependencies_.length + 1 = 3 ∧
    (∃ r, sheetCyclic.CheckCircularDependency C1 [A1] = some r) ∧
    (∃ r, sheetCyclic.InvalidateCacheForDependents A1 = some r) :=
  ⟨by decide, by decide, by decide, by decide,
    (C19_traversals_terminate sampleExt sheetCyclic C1 [A1]).2.2.1,
    (C19_traversals_terminate sampleExt sheetCyclic A1 [A1]).2.2.2⟩

end Spreadsheet
